import Mathlib

/-!
Shallow embedding of the solar-challenge data pipeline
(`src/data_cleaner.py`, `src/data_profiler.py`, `src/data_loader.py`).

A measurement table is a header (list of column names) together with a
list of rows; every cell is `Option ℚ` (`none` is the missing marker
NaN/NaT, `some v` a numeric value).  Machine floats are idealised as
exact rationals; the places where pandas/NumPy produce NaN out of a
division by zero (z-scores of a constant column, quantiles of an empty
column, ratios over an empty table) are modelled explicitly at each
operation, matching the behaviour the float code exhibits there.
-/

namespace Solar

/-- A cell of the table: `none` models a missing value (NaN). -/
abbrev Cell := Option ℚ

/-- A row of the table, one cell per column. -/
abbrev Row := List Cell

/-- A measurement table: column names plus rows.  Mirrors the
`pd.DataFrame` the cleaner and profiler operate on. -/
structure Table where
  header : List String
  rows : List Row
deriving DecidableEq, Repr

/-- Reading the `j`-th cell of a row; positions beyond the row's length
read as missing. -/
def getCell (r : Row) (j : ℕ) : Cell :=
  r.getD j none

/-- The `j`-th column of the table as a list of cells. -/
def colCells (t : Table) (j : ℕ) : List Cell :=
  t.rows.map (fun r => getCell r j)

/-- The non-missing values of a list of cells (`Series.dropna()`). -/
def nonNull (cs : List Cell) : List ℚ :=
  cs.filterMap id

/-- Fuel-driven helper for keep-first deduplication: keep the head,
discard its later copies, recurse.  The fuel (any bound on the list
length) only makes the recursion structural. -/
def dedupFirstFuel {α : Type} [DecidableEq α] : ℕ → List α → List α
  | _, [] => []
  | 0, l => l
  | n + 1, x :: xs => x :: dedupFirstFuel n (xs.filter (fun y => decide (y ≠ x)))

/-- Keep-first deduplication, the semantics of
`DataFrame.drop_duplicates()` (default `keep='first'`, with NaN equal to
NaN, which `Option` equality gives us). -/
def dedupFirst {α : Type} [DecidableEq α] (l : List α) : List α :=
  dedupFirstFuel l.length l

/-- Map over a list with the position of each element, starting the
count at `k`.  Used to transform single columns of a row in place. -/
def mapIdxFrom {α : Type} (f : ℕ → α → α) : ℕ → List α → List α
  | _, [] => []
  | k, c :: cs => f k c :: mapIdxFrom f (k + 1) cs

/-- Pair each element with its position, starting the count at `k`. -/
def idxFrom {α : Type} (k : ℕ) : List α → List (ℕ × α)
  | [] => []
  | x :: xs => (k, x) :: idxFrom (k + 1) xs

/-- Remove the elements whose position (counting from `k`) lies in
`drop`.  Models `DataFrame.drop(columns=...)` applied to header and to
every row. -/
def removeIdxsFrom {α : Type} (drop : List ℕ) : ℕ → List α → List α
  | _, [] => []
  | k, x :: xs =>
    if k ∈ drop then removeIdxsFrom drop (k + 1) xs
    else x :: removeIdxsFrom drop (k + 1) xs

/-- First position of `name` in the header (`df.columns`), the meaning
of column access `df[col]` for uniquely named columns. -/
def firstIdxOf (name : String) : List String → Option ℕ
  | [] => none
  | s :: rest =>
    if s = name then some 0
    else (firstIdxOf name rest).map (· + 1)

/-- All positions of the columns called `name`. -/
def colIdxsNamed (t : Table) (name : String) : List ℕ :=
  (List.range t.header.length).filter (fun j => decide (t.header.getD j "" = name))

/-- Mean of a list of values (`Series.mean()` over the non-missing
values); the empty list yields `0/0 = 0`, a case every caller guards. -/
def meanQ (l : List ℚ) : ℚ :=
  l.sum / (l.length : ℚ)

/-- Population variance (`scipy.stats.zscore` uses `ddof=0`). -/
def popVar (l : List ℚ) : ℚ :=
  ((l.map (fun v => (v - meanQ l) ^ 2)).sum) / (l.length : ℚ)

/-- Linear interpolation into a sorted list at fractional position
`pos`, the interpolation rule of `Series.quantile(interpolation='linear')`. -/
def interpAt (s : List ℚ) (pos : ℚ) : ℚ :=
  let l := (⌊pos⌋).toNat
  s.getD l 0 + (pos - ((⌊pos⌋ : ℤ) : ℚ)) * (s.getD (l + 1) 0 - s.getD l 0)

/-- `Series.quantile(q)` over the non-missing values: sort, then
linearly interpolate at position `q·(n−1)`. -/
def quantileQ (l : List ℚ) (q : ℚ) : ℚ :=
  let s := List.insertionSort (· ≤ ·) l
  interpAt s (q * ((s.length : ℚ) - 1))

/-- `Series.median()`: middle element of the sorted values, or the mean
of the two middle elements for an even count. -/
def medianQ (l : List ℚ) : ℚ :=
  let s := List.insertionSort (· ≤ ·) l
  let n := s.length
  if n % 2 = 1 then s.getD (n / 2) 0
  else (s.getD (n / 2 - 1) 0 + s.getD (n / 2) 0) / 2

/-- Structured rendering of the strings `log_action` records: each
constructor corresponds to one `action` string of `data_cleaner.py`,
its arguments to the counts interpolated into the `details` string. -/
inductive LogEntry
  | removedDuplicates (count : ℕ)
  | droppedColumns (count : ℕ)
  | droppedRows (count : ℕ)
  | fixedNegativeValues (col : String) (count : ℕ)
  | removedOutliers (count : ℕ)
  | cappedOutliers (col : String) (count : ℕ)
deriving DecidableEq, Repr

/-- The closed enumeration of missing-value strategies of
`handle_missing_values`. -/
inductive Strategy
  | median
  | mean
  | forwardFill
  | drop
deriving DecidableEq, Repr

/-- The irradiance-group columns (`irradiance_cols` in the source). -/
def irradianceCols : List String :=
  ["GHI", "DNI", "DHI", "ModA", "ModB"]

/-- The fixed outlier-column list of the canonical pipeline
(`outlier_cols` in `clean_pipeline`). -/
def pipelineOutlierCols : List String :=
  ["GHI", "DNI", "DHI", "ModA", "ModB", "WS", "WSgust"]

/-- `DataCleaner.remove_duplicates`: drop exact duplicate rows, log the
removed count if nonzero. -/
def removeDuplicatesStep (t : Table) : Table × List LogEntry :=
  let kept := dedupFirst t.rows
  let removed := t.rows.length - kept.length
  (⟨t.header, kept⟩, if 0 < removed then [.removedDuplicates removed] else [])

/-- `DataCleaner.coerce_numeric_columns`: `pd.to_numeric(errors='coerce')`
on the expected numeric columns.  Cells of the embedding are already
numeric-or-missing, so the coercion is the identity on this model. -/
def coerceNumericColumns (t : Table) : Table := t

/-- Fraction of missing values of column `j` (`isnull().sum() / len`).
For an empty table both the float code (NaN) and this model (0) fail the
`> threshold` comparison, so the two agree downstream. -/
def missingFrac (t : Table) (j : ℕ) : ℚ :=
  (((colCells t j).filter Option.isNone).length : ℚ) / (t.rows.length : ℚ)

/-- Replace the missing cells of column `j` by `v` (`fillna(v)`). -/
def fillColWith (j : ℕ) (v : ℚ) (t : Table) : Table :=
  ⟨t.header,
   t.rows.map (fun r => mapIdxFrom (fun k c => if k = j ∧ c = none then some v else c) 0 r)⟩

/-- For each column with at least one missing value, fill the missing
cells with `stat` of that column's non-missing values.  A column with no
non-missing value is left alone: pandas fills with `NaN` there, which
changes nothing. -/
def fillMissingWith (stat : List ℚ → ℚ) (t : Table) : Table :=
  (List.range t.header.length).foldl (fun t' j =>
    let col := colCells t' j
    if col.any Option.isNone ∧ nonNull col ≠ [] then fillColWith j (stat (nonNull col)) t'
    else t') t

/-- One row of forward fill: missing cells take the value of the
previous (already filled) row at the same position. -/
def ffillRow (prev : Row) (r : Row) : Row :=
  mapIdxFrom (fun j c => if c = none then getCell prev j else c) 0 r

/-- Forward fill over a row list, threading the previous filled row. -/
def ffillRows : Row → List Row → List Row
  | _, [] => []
  | prev, r :: rs =>
    let r' := ffillRow prev r
    r' :: ffillRows r' rs

/-- `fillna(method='ffill')` over all columns. -/
def forwardFillTable (t : Table) : Table :=
  ⟨t.header, ffillRows [] t.rows⟩

/-- `DataCleaner.handle_missing_values(strategy, threshold)`: drop the
columns whose missing fraction exceeds `threshold` (logged when any),
then apply the strategy.  The `drop` branch logs its removed-row count
unconditionally, exactly as the source does. -/
def handleMissingValues (strategy : Strategy) (threshold : ℚ) (t : Table) : Table × List LogEntry :=
  let dropIdx := (List.range t.header.length).filter (fun j => decide (missingFrac t j > threshold))
  let t1 : Table :=
    if dropIdx = [] then t
    else ⟨removeIdxsFrom dropIdx 0 t.header, t.rows.map (removeIdxsFrom dropIdx 0)⟩
  let log1 : List LogEntry := if dropIdx = [] then [] else [.droppedColumns dropIdx.length]
  match strategy with
  | .median => (fillMissingWith medianQ t1, log1)
  | .mean => (fillMissingWith meanQ t1, log1)
  | .forwardFill => (forwardFillTable t1, log1)
  | .drop =>
    let kept := t1.rows.filter (fun r => r.all Option.isSome)
    (⟨t1.header, kept⟩, log1 ++ [.droppedRows (t1.rows.length - kept.length)])

/-- `Series.clip(lower=0)` on one cell: negative values go to `0`,
missing values stay missing. -/
def clipNonneg (c : Cell) : Cell :=
  c.map (fun v => if v < 0 then 0 else v)

/-- `(df[col] < 0).sum()`: number of strictly negative non-missing
values in the columns called `name` (NaN compares false). -/
def negCountFor (t : Table) (name : String) : ℕ :=
  ((colIdxsNamed t name).map
    (fun j => ((nonNull (colCells t j)).filter (fun v => decide (v < 0))).length)).sum

/-- Clip the columns called `name` at zero. -/
def clipColsNamed (t : Table) (name : String) : Table :=
  ⟨t.header,
   t.rows.map (fun r =>
     mapIdxFrom (fun j c => if t.header.getD j "" = name then clipNonneg c else c) 0 r)⟩

/-- One column of `DataCleaner.validate_irradiance_values`: when the
column is present and has negative values, clip it and log the count. -/
def validateFoldStep (p : Table × List LogEntry) (name : String) : Table × List LogEntry :=
  if name ∈ p.1.header then
    let n := negCountFor p.1 name
    if 0 < n then (clipColsNamed p.1 name, p.2 ++ [LogEntry.fixedNegativeValues name n])
    else p
  else p

/-- `DataCleaner.validate_irradiance_values`: clip every irradiance
column at zero, logging per column. -/
def validateIrradianceValues (t : Table) : Table × List LogEntry :=
  irradianceCols.foldl validateFoldStep (t, [])

/-- Whether a non-missing value survives the z-score test
`|v − μ|/σ ≤ thr`, phrased without the square root.  A zero variance
makes every z-score NaN in `scipy.stats.zscore`, and NaN fails the
`<= threshold` comparison, so nothing survives then. -/
def zKeep (thr μ v2 v : ℚ) : Bool :=
  decide (v2 ≠ 0 ∧ (v - μ) ^ 2 ≤ thr ^ 2 * v2)

/-- One column of `DataCleaner.remove_outliers_zscore`: keep exactly the
rows whose value in the column is non-missing and within the threshold,
with mean and variance taken from the table as it stands now.  Rows
missing in this column are dropped too: only indices of non-missing
values enter `valid_indices` in the source. -/
def zscorePass (thr : ℚ) (t : Table) (name : String) : Table :=
  match firstIdxOf name t.header with
  | none => t
  | some j =>
    let vs := nonNull (colCells t j)
    ⟨t.header,
     t.rows.filter (fun r =>
       match getCell r j with
       | none => false
       | some v => zKeep thr (meanQ vs) (popVar vs) v)⟩

/-- `DataCleaner.remove_outliers_zscore(columns, threshold)`: one pass
per column over the current state, then one log entry for the total
removed count if nonzero. -/
def removeOutliersZscore (cols : List String) (thr : ℚ) (t : Table) : Table × List LogEntry :=
  let t' := cols.foldl (zscorePass thr) t
  let removed := t.rows.length - t'.rows.length
  (t', if 0 < removed then [.removedOutliers removed] else [])

/-- `Series.clip(lower, upper)` on a value. -/
def clampQ (lo hi v : ℚ) : ℚ :=
  max lo (min v hi)

/-- Clip column `j` of the table to `[lo, hi]`; missing cells stay
missing, other columns are untouched. -/
def capClampTable (t : Table) (j : ℕ) (lo hi : ℚ) : Table :=
  ⟨t.header,
   t.rows.map (fun r =>
     mapIdxFrom (fun k c => if k = j then c.map (clampQ lo hi) else c) 0 r)⟩

/-- The Tukey fences `Q1 - 1.5 IQR` and `Q3 + 1.5 IQR` computed by
`DataCleaner.cap_outliers_iqr`. -/
def tukeyFences (vs : List ℚ) : ℚ × ℚ :=
  let q1 := quantileQ vs (1 / 4)
  let q3 := quantileQ vs (3 / 4)
  (q1 - 3 / 2 * (q3 - q1), q3 + 3 / 2 * (q3 - q1))

/-- How many of the values fall outside `[lo, hi]` (the count the source
logs as capped outliers). -/
def outsideCount (vs : List ℚ) (lo hi : ℚ) : ℕ :=
  (vs.filter (fun v => decide (v < lo ∨ hi < v))).length

/-- One column of `DataCleaner.cap_outliers_iqr`: Tukey fences from the
quartiles, count the values outside, clip, and log the count if
nonzero.  An all-missing column gives NaN bounds in pandas, under which
clip changes nothing and the count is zero, hence the skip. -/
def capFoldStep (p : Table × List LogEntry) (name : String) : Table × List LogEntry :=
  match firstIdxOf name p.1.header with
  | none => p
  | some j =>
    let vs := nonNull (colCells p.1 j)
    if vs = [] then p
    else
      let lo := (tukeyFences vs).1
      let hi := (tukeyFences vs).2
      let capped := outsideCount vs lo hi
      (capClampTable p.1 j lo hi,
       if 0 < capped then p.2 ++ [.cappedOutliers name capped] else p.2)

/-- `DataCleaner.cap_outliers_iqr(columns)`. -/
def capOutliersIqr (cols : List String) (t : Table) : Table × List LogEntry :=
  cols.foldl capFoldStep (t, [])

/-- `DataCleaner.clean_pipeline(remove_outliers)`: duplicates, numeric
coercion, median missing-value handling, irradiance validation, then
optionally z-score outlier removal at threshold 3 over the fixed column
list; the log accumulates in step order. -/
def cleanPipeline (ro : Bool) (t : Table) : Table × List LogEntry :=
  let p1 := removeDuplicatesStep t
  let t2 := coerceNumericColumns p1.1
  let p3 := handleMissingValues .median (1 / 2) t2
  let p4 := validateIrradianceValues p3.1
  let p5 := if ro then removeOutliersZscore pipelineOutlierCols 3 p4.1 else (p4.1, [])
  (p5.1, p1.2 ++ p3.2 ++ p4.2 ++ p5.2)

/-- The state a `DataCleaner` instance carries: the working table and
the append-only cleaning log. -/
structure CleanerState where
  table : Table
  log : List LogEntry
deriving DecidableEq, Repr

/-- The individually callable cleaning steps of `DataCleaner`. -/
inductive CleanStep
  | removeDups
  | coerceNumeric
  | handleMissing (strategy : Strategy) (threshold : ℚ)
  | validateIrradiance
  | removeOutliersZ (cols : List String) (thr : ℚ)
  | capOutliersI (cols : List String)
deriving DecidableEq, Repr

/-- The table transformation and fresh log entries of one step. -/
def stepResult : CleanStep → Table → Table × List LogEntry
  | .removeDups, t => removeDuplicatesStep t
  | .coerceNumeric, t => (coerceNumericColumns t, [])
  | .handleMissing s th, t => handleMissingValues s th t
  | .validateIrradiance, t => validateIrradianceValues t
  | .removeOutliersZ cols thr, t => removeOutliersZscore cols thr t
  | .capOutliersI cols, t => capOutliersIqr cols t

/-- Run one cleaning step on the cleaner state, appending its log
entries (`log_action` only ever appends). -/
def runStep (s : CleanerState) (st : CleanStep) : CleanerState :=
  ⟨(stepResult st s.table).1, s.log ++ (stepResult st s.table).2⟩

/-- `df.size`: number of cells. -/
def totalCells (t : Table) : ℕ :=
  t.rows.length * t.header.length

/-- `df.isnull().sum().sum()`: number of missing cells. -/
def missingCells (t : Table) : ℕ :=
  ((List.range t.header.length).map
    (fun j => ((colCells t j).filter Option.isNone).length)).sum

/-- Total count of negative readings over the irradiance columns that
are present (`DataProfiler.data_quality_score`). -/
def negIrradianceCount (t : Table) : ℕ :=
  (irradianceCols.map (fun name => if name ∈ t.header then negCountFor t name else 0)).sum

/-- `df.duplicated().sum()`: rows that repeat an earlier row. -/
def dupRowCount (t : Table) : ℕ :=
  t.rows.length - (dedupFirst t.rows).length

/-- The quality-score record returned by
`DataProfiler.data_quality_score`. -/
structure QualityScore where
  completeness : ℚ
  validity : ℚ
  uniqueness : ℚ
  overallQuality : ℚ
deriving DecidableEq, Repr

/-- `DataProfiler.data_quality_score`: completeness, validity and
uniqueness percentages combined with weights 0.4/0.4/0.2. -/
def dataQualityScore (t : Table) : QualityScore :=
  let total : ℚ := (totalCells t : ℚ)
  let completeness := ((total - (missingCells t : ℚ)) / total) * 100
  let validity := 100 - (((negIrradianceCount t : ℚ) / (t.rows.length : ℚ)) * 100)
  let uniqueness := (((t.rows.length : ℚ) - (dupRowCount t : ℚ)) / (t.rows.length : ℚ)) * 100
  ⟨completeness, validity, uniqueness,
   completeness * (4 / 10) + validity * (4 / 10) + uniqueness * (2 / 10)⟩

/-- The filename normalisation of `load_country_data`:
`''.join(ch for ch in s.lower() if ch.isalnum())`. -/
def normChars (s : List Char) : List Char :=
  (s.map Char.toLower).filter Char.isAlphanum

/-- Substring test on character lists (Python's `in` on strings). -/
def containsSeq (pat : List Char) : List Char → Bool
  | [] => pat.isEmpty
  | c :: cs => pat.isPrefixOf (c :: cs) || containsSeq pat cs

/-- The candidate filter of `load_country_data`: a `.csv` file, not a
cleaned output (no `clean` in the lowered name), whose normalised name
contains the normalised country name. -/
def isRawCandidate (country : String) (fname : String) : Bool :=
  let fl := fname.data.map Char.toLower
  ".csv".data.isSuffixOf fl && !containsSeq "clean".data fl &&
    containsSeq (normChars country.data) (normChars fl)

/-- The candidate files of a directory listing, in listing order. -/
def candidateFiles (files : List String) (country : String) : List String :=
  files.filter (isRawCandidate country)

/-- The failure of `load_country_data` (`FileNotFoundError`). -/
inductive LoadError
  | notFound
deriving DecidableEq, Repr

deriving instance DecidableEq for Except

/-- Lexicographic order on character lists by code point, Python's
ordering of strings in `sorted` / `list.sort`. -/
def lexLeChars : List Char → List Char → Bool
  | [], _ => true
  | _ :: _, [] => false
  | a :: as, b :: bs => if a = b then lexLeChars as bs else decide (a < b)

/-- Lexicographic order on strings by code point. -/
def strLeB (a b : String) : Bool :=
  lexLeChars a.data b.data

/-- `candidates.sort()`: the candidate list in lexicographic order. -/
def sortedCandidates (cs : List String) : List String :=
  List.insertionSort (fun a b => strLeB a b = true) cs

/-- `SolarDataLoader.load_country_data`, modelled up to file selection:
error when no candidate matches, otherwise the first candidate after
sorting. -/
def loadCountryData (files : List String) (country : String) : Except LoadError String :=
  let cs := candidateFiles files country
  if cs = [] then .error .notFound
  else .ok ((sortedCandidates cs).headD "")

/-- The spec's description of keep-first deduplication: scan left to
right, appending each row the first time its value is seen. -/
def keepFirstOccurrences {α : Type} [DecidableEq α] (l : List α) : List α :=
  l.foldl (fun acc x => if x ∈ acc then acc else acc ++ [x]) []

/-- The spec's description of one z-score pass over a row list: compute
the column's mean and variance over the non-missing values of the rows
at hand, keep the rows passing the test. -/
def specZscoreFilter (thr : ℚ) (j : ℕ) (rs : List Row) : List Row :=
  let vs := nonNull (rs.map (fun r => getCell r j))
  rs.filter (fun r =>
    match getCell r j with
    | none => false
    | some v => zKeep thr (meanQ vs) (popVar vs) v)

/-- The spec's description of sequential z-score removal: column by
column in list order, each column's statistics recomputed over the rows
surviving the previous columns. -/
def specZscoreSurvivors (thr : ℚ) (hdr : List String) : List String → List Row → List Row
  | [], rs => rs
  | c :: cs, rs =>
    match firstIdxOf c hdr with
    | none => specZscoreSurvivors thr hdr cs rs
    | some j => specZscoreSurvivors thr hdr cs (specZscoreFilter thr j rs)

/-- Whether the row's value in column `j` is present and negative. -/
def negRowAt (j : ℕ) (r : Row) : Bool :=
  match getCell r j with
  | some v => decide (v < 0)
  | none => false

/-- Every row has exactly one cell per header column. -/
def wfTable (t : Table) : Prop :=
  ∀ r ∈ t.rows, r.length = t.header.length

/-- The table has no missing cell. -/
def noMissing (t : Table) : Prop :=
  ∀ r ∈ t.rows, ∀ c ∈ r, c ≠ none

instance (t : Table) : Decidable (wfTable t) :=
  List.decidableBAll _ t.rows

instance (t : Table) : Decidable (noMissing t) :=
  List.decidableBAll _ t.rows

/-- Recognise a removed-duplicates log entry. -/
def isRemovedDuplicatesEntry : LogEntry → Bool
  | .removedDuplicates _ => true
  | _ => false

/-- Recognise a fixed-negative-values log entry for column `name`. -/
def isFixedNegativeFor (name : String) : LogEntry → Bool
  | .fixedNegativeValues nm _ => nm == name
  | _ => false

/-- A 100-row one-column table: three pairwise distinct negative rows,
92 distinct non-negative rows, and five extra copies of one of them. -/
def c1Rows : List Row :=
  [[some (-1)], [some (-2)], [some (-3)]] ++
    ((List.range 92).map (fun i => [some (i : ℚ)])) ++
    [[some 0], [some 0], [some 0], [some 0], [some 0]]

/-- The witness table for the pipeline scenario. -/
def c1Table : Table :=
  ⟨["GHI"], c1Rows⟩

/-- A 100-row table matching the scenario's premises literally — five
duplicate rows, three negative `GHI` cells, no missing values — but with
two of the negative rows equal to each other. -/
def c1BadRows : List Row :=
  [[some (-1)], [some (-1)], [some (-2)]] ++
    ((List.range 93).map (fun i => [some (i : ℚ)])) ++
    [[some 0], [some 0], [some 0], [some 0]]

/-- The counterexample table for the pipeline scenario. -/
def c1BadTable : Table :=
  ⟨["GHI"], c1BadRows⟩

/-- One row, all five irradiance columns negative: five negative
readings against one row. -/
def c6BadTable : Table :=
  ⟨["GHI", "DNI", "DHI", "ModA", "ModB"], [[some (-1), some (-1), some (-1), some (-1), some (-1)]]⟩

/-- Two distinct rows that the pipeline's negative-clipping makes
identical. -/
def c8BadTable : Table :=
  ⟨["GHI"], [[some (-1)], [some 0]]⟩

/-- A cleaner state holding a table with no missing values and an empty
log. -/
def c5BadState : CleanerState :=
  ⟨⟨["GHI"], [[some 1]]⟩, []⟩

/-! ### List infrastructure -/

attribute [local semireducible] Rat.mul Rat.add Rat.sub Rat.inv

theorem dedupFirstFuel_congr {α : Type} [DecidableEq α] :
    ∀ (n m : ℕ) (l : List α), l.length ≤ n → l.length ≤ m →
      dedupFirstFuel n l = dedupFirstFuel m l
  | n, m, [], _, _ => by cases n <;> cases m <;> rfl
  | 0, _, x :: xs, hn, _ => by simp at hn
  | _ + 1, 0, x :: xs, _, hm => by simp at hm
  | n + 1, m + 1, x :: xs, hn, hm => by
    simp only [dedupFirstFuel]
    congr 1
    exact dedupFirstFuel_congr n m _
      (le_trans (List.length_filter_le _ _) (by simpa using hn))
      (le_trans (List.length_filter_le _ _) (by simpa using hm))

theorem dedupFirst_nil {α : Type} [DecidableEq α] : dedupFirst ([] : List α) = [] := rfl

theorem dedupFirst_cons {α : Type} [DecidableEq α] (x : α) (xs : List α) :
    dedupFirst (x :: xs) = x :: dedupFirst (xs.filter (fun y => decide (y ≠ x))) := by
  show dedupFirstFuel (x :: xs).length (x :: xs) = _
  simp only [List.length_cons, dedupFirstFuel]
  congr 1
  exact dedupFirstFuel_congr xs.length _ _ (List.length_filter_le _ _) (le_refl _)

theorem foldl_fixed {α β : Type} (f : α → β → α) (t : α) :
    ∀ l : List β, (∀ b ∈ l, f t b = t) → l.foldl f t = t
  | [], _ => rfl
  | b :: l, h => by
    rw [List.foldl_cons, h b (List.mem_cons_self b l)]
    exact foldl_fixed f t l (fun x hx => h x (List.mem_cons_of_mem b hx))

theorem length_mapIdxFrom {α : Type} (f : ℕ → α → α) :
    ∀ (k : ℕ) (l : List α), (mapIdxFrom f k l).length = l.length
  | _, [] => rfl
  | k, c :: cs => by
    simp [mapIdxFrom, length_mapIdxFrom f (k + 1) cs]

theorem getD_mapIdxFrom {α : Type} (f : ℕ → α → α) (d : α) :
    ∀ (k : ℕ) (l : List α) (i : ℕ),
      (mapIdxFrom f k l).getD i d = if i < l.length then f (k + i) (l.getD i d) else d
  | _, [], i => by simp [mapIdxFrom]
  | k, c :: cs, 0 => by simp [mapIdxFrom]
  | k, c :: cs, i + 1 => by
    have h := getD_mapIdxFrom f d (k + 1) cs i
    simp only [mapIdxFrom, List.getD_cons_succ, List.length_cons]
    rw [h]
    have harith : k + 1 + i = k + (i + 1) := by omega
    have hlt : i + 1 < cs.length + 1 ↔ i < cs.length := by omega
    rw [harith]
    by_cases hi : i < cs.length
    · rw [if_pos hi, if_pos (hlt.mpr hi)]
    · rw [if_neg hi, if_neg (fun hc => hi (hlt.mp hc))]

theorem getD_map_of_default {α β : Type} (f : α → β) (d : α) (e : β) (he : f d = e) :
    ∀ (l : List α) (i : ℕ), (l.map f).getD i e = f (l.getD i d)
  | [], i => by simp [he]
  | x :: xs, 0 => by simp
  | x :: xs, i + 1 => by
    simp only [List.map_cons, List.getD_cons_succ]
    exact getD_map_of_default f d e he xs i

theorem getD_mem_of_lt {α : Type} (d : α) :
    ∀ (l : List α) (i : ℕ), i < l.length → l.getD i d ∈ l
  | x :: xs, 0, _ => List.mem_cons_self x xs
  | x :: xs, i + 1, h => by
    simp only [List.getD_cons_succ]
    exact List.mem_cons_of_mem x (getD_mem_of_lt d xs i (by simpa using h))

theorem exists_getD_of_mem {α : Type} (d : α) :
    ∀ (l : List α) (a : α), a ∈ l → ∃ i, i < l.length ∧ l.getD i d = a
  | x :: xs, a, h => by
    rcases List.mem_cons.mp h with h | h
    · exact ⟨0, by simp, by simp [h.symm]⟩
    · obtain ⟨i, hi, hget⟩ := exists_getD_of_mem d xs a h
      exact ⟨i + 1, by simpa using hi, by simpa using hget⟩

theorem map_id_of_mem {α : Type} (f : α → α) :
    ∀ l : List α, (∀ x ∈ l, f x = x) → l.map f = l
  | [], _ => rfl
  | x :: xs, h => by
    rw [List.map_cons, h x (List.mem_cons_self x xs),
      map_id_of_mem f xs (fun y hy => h y (List.mem_cons_of_mem x hy))]

theorem eq_of_map_eq_self {α : Type} (f : α → α) :
    ∀ l : List α, l.map f = l → ∀ x ∈ l, f x = x
  | x :: xs, h, y, hy => by
    rw [List.map_cons, List.cons_eq_cons] at h
    rcases List.mem_cons.mp hy with hyx | hyx
    · rw [hyx, h.1]
    · exact eq_of_map_eq_self f xs h.2 y hyx

theorem sum_le_length_mul : ∀ (l : List ℕ) (R : ℕ), (∀ x ∈ l, x ≤ R) → l.sum ≤ l.length * R
  | [], _, _ => by simp
  | x :: xs, R, h => by
    simp only [List.sum_cons, List.length_cons]
    have h1 := h x (List.mem_cons_self x xs)
    have h2 := sum_le_length_mul xs R (fun y hy => h y (List.mem_cons_of_mem x hy))
    calc x + xs.sum ≤ R + xs.length * R := Nat.add_le_add h1 h2
    _ = (xs.length + 1) * R := by ring

theorem exists_pos_of_sum_pos : ∀ l : List ℕ, 0 < l.sum → ∃ x ∈ l, 0 < x
  | x :: xs, h => by
    by_cases hx : 0 < x
    · exact ⟨x, List.mem_cons_self x xs, hx⟩
    · have : 0 < xs.sum := by simp only [List.sum_cons] at h; omega
      obtain ⟨y, hy, hypos⟩ := exists_pos_of_sum_pos xs this
      exact ⟨y, List.mem_cons_of_mem x hy, hypos⟩

/-! ### Keep-first deduplication -/

theorem dedupFirst_sublist {α : Type} [DecidableEq α] :
    (l : List α) → List.Sublist (dedupFirst l) l
  | [] => by rw [dedupFirst_nil]
  | x :: xs => by
    rw [dedupFirst_cons]
    exact List.Sublist.cons₂ x ((dedupFirst_sublist _).trans (List.filter_sublist xs))
termination_by l => l.length
decreasing_by
  simp only [List.length_cons]
  exact Nat.lt_succ_of_le (List.length_filter_le _ _)

theorem mem_dedupFirst {α : Type} [DecidableEq α] : (l : List α) → ∀ a, a ∈ dedupFirst l ↔ a ∈ l
  | [] => by rw [dedupFirst_nil]; simp
  | x :: xs => by
    intro a
    rw [dedupFirst_cons, List.mem_cons,
      mem_dedupFirst (xs.filter (fun y => decide (y ≠ x))) a, List.mem_filter]
    by_cases hax : a = x
    · simp [hax]
    · simp [hax]
termination_by l => l.length
decreasing_by
  simp only [List.length_cons]
  exact Nat.lt_succ_of_le (List.length_filter_le _ _)

theorem nodup_dedupFirst {α : Type} [DecidableEq α] : (l : List α) → (dedupFirst l).Nodup
  | [] => by rw [dedupFirst_nil]; exact List.nodup_nil
  | x :: xs => by
    rw [dedupFirst_cons]
    refine List.nodup_cons.mpr ⟨fun hmem => ?_, nodup_dedupFirst _⟩
    have := (mem_dedupFirst _ x).mp hmem
    simp [List.mem_filter] at this
termination_by l => l.length
decreasing_by
  all_goals simp only [List.length_cons]
  all_goals exact Nat.lt_succ_of_le (List.length_filter_le _ _)

theorem filter_dedupFirst {α : Type} [DecidableEq α] (p : α → Bool) :
    (l : List α) → (dedupFirst l).filter p = dedupFirst (l.filter p)
  | [] => by rw [dedupFirst_nil, List.filter_nil, dedupFirst_nil]
  | x :: xs => by
    rw [dedupFirst_cons, List.filter_cons]
    by_cases hp : p x = true
    · rw [if_pos hp, List.filter_cons, if_pos hp, dedupFirst_cons,
        filter_dedupFirst p (xs.filter (fun y => decide (y ≠ x))), List.filter_comm]
    · rw [if_neg hp, List.filter_cons, if_neg hp,
        filter_dedupFirst p (xs.filter (fun y => decide (y ≠ x))), List.filter_comm]
      congr 1
      refine List.filter_eq_self.mpr (fun a ha => ?_)
      have hap : p a = true := (List.mem_filter.mp ha).2
      simp only [decide_eq_true_eq]
      intro hax
      rw [hax] at hap
      exact hp hap
termination_by l => l.length
decreasing_by
  all_goals simp only [List.length_cons]
  all_goals exact Nat.lt_succ_of_le (List.length_filter_le _ _)

theorem dedupFirst_eq_self_of_nodup {α : Type} [DecidableEq α] :
    (l : List α) → l.Nodup → dedupFirst l = l
  | [], _ => by rw [dedupFirst_nil]
  | x :: xs, h => by
    rw [dedupFirst_cons]
    obtain ⟨hx, hxs⟩ := List.nodup_cons.mp h
    have hfil : xs.filter (fun y => decide (y ≠ x)) = xs := by
      refine List.filter_eq_self.mpr (fun a ha => ?_)
      simp only [decide_eq_true_eq]
      intro hax
      exact hx (hax ▸ ha)
    rw [hfil, dedupFirst_eq_self_of_nodup xs hxs]

theorem foldl_keepFirst {α : Type} [DecidableEq α] :
    ∀ (l acc : List α),
      l.foldl (fun a x => if x ∈ a then a else a ++ [x]) acc
        = acc ++ dedupFirst (l.filter (fun y => decide (y ∉ acc)))
  | [], acc => by rw [List.foldl_nil, List.filter_nil, dedupFirst_nil, List.append_nil]
  | x :: xs, acc => by
    rw [List.foldl_cons]
    by_cases hx : x ∈ acc
    · rw [if_pos hx, foldl_keepFirst xs acc, List.filter_cons]
      simp [hx]
    · rw [if_neg hx, foldl_keepFirst xs (acc ++ [x]), List.filter_cons]
      have hdx : decide (x ∉ acc) = true := by simp [hx]
      rw [if_pos hdx, dedupFirst_cons]
      have hfil : xs.filter (fun y => decide (y ∉ acc ++ [x]))
          = (xs.filter (fun y => decide (y ∉ acc))).filter (fun y => decide (y ≠ x)) := by
        rw [List.filter_comm]
        rw [List.filter_filter]
        apply List.filter_congr
        intro a _
        rw [Bool.eq_iff_iff]
        simp only [Bool.and_eq_true, decide_eq_true_eq, List.mem_append, List.mem_singleton]
        tauto
      rw [hfil, List.append_assoc, List.singleton_append]

/-! ### Irradiance validation -/

theorem getD_of_length_le {α : Type} (d : α) :
    ∀ (l : List α) (i : ℕ), l.length ≤ i → l.getD i d = d
  | [], _, _ => rfl
  | x :: xs, i + 1, h => by
    simp only [List.getD_cons_succ]
    exact getD_of_length_le d xs i (by simpa using h)

theorem clipNonneg_idem (c : Cell) : clipNonneg (clipNonneg c) = clipNonneg c := by
  cases c with
  | none => rfl
  | some v =>
    by_cases hv : v < 0
    · simp [clipNonneg, hv]
    · simp [clipNonneg, hv]

theorem clipNonneg_nonneg (c : Cell) (v : ℚ) (h : clipNonneg c = some v) : 0 ≤ v := by
  cases c with
  | none => simp [clipNonneg] at h
  | some w =>
    simp only [clipNonneg, Option.map] at h
    by_cases hw : w < 0
    · rw [if_pos hw] at h
      cases h
      exact le_refl 0
    · rw [if_neg hw] at h
      cases h
      exact le_of_not_lt hw

theorem clipColsNamed_header (t : Table) (name : String) :
    (clipColsNamed t name).header = t.header := rfl

theorem clipColsNamed_length (t : Table) (name : String) :
    (clipColsNamed t name).rows.length = t.rows.length := by
  simp [clipColsNamed]

theorem getCell_clipColsNamed (t : Table) (name : String) (i j : ℕ) :
    getCell ((clipColsNamed t name).rows.getD i []) j =
      if t.header.getD j "" = name then clipNonneg (getCell (t.rows.getD i []) j)
      else getCell (t.rows.getD i []) j := by
  have hmap : (clipColsNamed t name).rows.getD i []
      = mapIdxFrom (fun k c => if t.header.getD k "" = name then clipNonneg c else c) 0
          (t.rows.getD i []) := by
    exact getD_map_of_default _ [] [] rfl t.rows i
  rw [hmap]
  show (mapIdxFrom _ 0 (t.rows.getD i [])).getD j none = _
  rw [getD_mapIdxFrom]
  by_cases hj : j < (t.rows.getD i []).length
  · rw [if_pos hj, Nat.zero_add]
    rfl
  · rw [if_neg hj]
    have hcell : getCell (t.rows.getD i []) j = none := by
      exact getD_of_length_le none _ j (le_of_not_lt hj)
    rw [hcell]
    by_cases hn : t.header.getD j "" = name
    · rw [if_pos hn]; rfl
    · rw [if_neg hn]

theorem mem_colIdxsNamed (t : Table) (name : String) (j : ℕ) :
    j ∈ colIdxsNamed t name ↔ j < t.header.length ∧ t.header.getD j "" = name := by
  simp [colIdxsNamed, List.mem_filter, List.mem_range]

theorem neg_cell_of_negCount_pos (t : Table) (name : String)
    (h : 0 < negCountFor t name) :
    ∃ j i v, j < t.header.length ∧ t.header.getD j "" = name ∧
      getCell (t.rows.getD i []) j = some v ∧ v < 0 := by
  obtain ⟨x, hx, hxpos⟩ := exists_pos_of_sum_pos _ h
  obtain ⟨j, hjmem, hjx⟩ := List.mem_map.mp hx
  obtain ⟨hjlt, hjname⟩ := (mem_colIdxsNamed t name j).mp hjmem
  rw [← hjx] at hxpos
  have hne : ((nonNull (colCells t j)).filter (fun v => decide (v < 0))) ≠ [] := by
    intro hnil
    rw [hnil] at hxpos
    simp at hxpos
  obtain ⟨v, hv⟩ := List.exists_mem_of_ne_nil _ hne
  have hv2 := List.mem_filter.mp hv
  have hvneg : v < 0 := by simpa using hv2.2
  obtain ⟨c, hcmem, hc⟩ := List.mem_filterMap.mp hv2.1
  have hceq : c = some v := hc
  obtain ⟨r, hrmem, hr⟩ := List.mem_map.mp hcmem
  obtain ⟨i, _, hi⟩ := exists_getD_of_mem [] t.rows r hrmem
  exact ⟨j, i, v, hjlt, hjname, by rw [hi, hr, hceq], hvneg⟩

theorem cell_nonneg_of_negCount_zero (t : Table) (name : String)
    (h : negCountFor t name = 0) (i j : ℕ) (v : ℚ)
    (hj : j < t.header.length) (hname : t.header.getD j "" = name)
    (hget : getCell (t.rows.getD i []) j = some v) : ¬ v < 0 := by
  intro hv
  have hjmem : j ∈ colIdxsNamed t name := (mem_colIdxsNamed t name j).mpr ⟨hj, hname⟩
  have hzero : ((nonNull (colCells t j)).filter (fun v => decide (v < 0))).length = 0 := by
    have := (List.sum_eq_zero_iff).mp h
    exact this _ (List.mem_map_of_mem _ hjmem)
  by_cases hi : i < t.rows.length
  · have hrmem : t.rows.getD i [] ∈ t.rows := getD_mem_of_lt [] t.rows i hi
    have hcmem : getCell (t.rows.getD i []) j ∈ colCells t j :=
      List.mem_map_of_mem _ hrmem
    rw [hget] at hcmem
    have hvmem : v ∈ nonNull (colCells t j) :=
      List.mem_filterMap.mpr ⟨some v, hcmem, rfl⟩
    have : v ∈ (nonNull (colCells t j)).filter (fun v => decide (v < 0)) :=
      List.mem_filter.mpr ⟨hvmem, by simpa using hv⟩
    rw [List.length_eq_zero.mp hzero] at this
    simp at this
  · have : t.rows.getD i [] = [] := getD_of_length_le [] t.rows i (le_of_not_lt hi)
    rw [this] at hget
    simp [getCell] at hget

theorem validateFold_char :
    ∀ (ns : List String) (t : Table) (l : List LogEntry), (∀ n ∈ ns, n ≠ "") →
      (ns.foldl validateFoldStep (t, l)).1.header = t.header ∧
      (ns.foldl validateFoldStep (t, l)).1.rows.length = t.rows.length ∧
      (∀ i j, getCell ((ns.foldl validateFoldStep (t, l)).1.rows.getD i []) j =
        if t.header.getD j "" ∈ ns then clipNonneg (getCell (t.rows.getD i []) j)
        else getCell (t.rows.getD i []) j) ∧
      (∃ δ, (ns.foldl validateFoldStep (t, l)).2 = l ++ δ ∧
        ∀ e ∈ δ, ∃ nm k, nm ∈ ns ∧ 0 < k ∧ e = LogEntry.fixedNegativeValues nm k)
  | [], t, l, _ => by
    refine ⟨rfl, rfl, fun i j => ?_, [], by simp, by simp⟩
    rw [if_neg (by simp)]
    rfl
  | n :: ns, t, l, hns => by
    have hn_ne : n ≠ "" := hns n (List.mem_cons_self n ns)
    have hns' : ∀ m ∈ ns, m ≠ "" := fun m hm => hns m (List.mem_cons_of_mem n hm)
    rw [List.foldl_cons]
    have hgetn' : ∀ j, t.header.getD j "" = n → n ∉ t.header → False := by
      intro j hj hmem
      by_cases hlt : j < t.header.length
      · exact hmem (hj ▸ getD_mem_of_lt "" t.header j hlt)
      · rw [getD_of_length_le "" t.header j (le_of_not_lt hlt)] at hj
        exact hn_ne hj.symm
    by_cases hmem : n ∈ t.header
    · by_cases hneg : 0 < negCountFor t n
      · have hstep : validateFoldStep (t, l) n =
            (clipColsNamed t n, l ++ [LogEntry.fixedNegativeValues n (negCountFor t n)]) := by
          simp [validateFoldStep, hmem, hneg]
        rw [hstep]
        obtain ⟨ih1, ih2, ih3, δ', ih4, ih5⟩ :=
          validateFold_char ns (clipColsNamed t n)
            (l ++ [LogEntry.fixedNegativeValues n (negCountFor t n)]) hns'
        refine ⟨by rw [ih1, clipColsNamed_header], by rw [ih2, clipColsNamed_length],
          fun i j => ?_, LogEntry.fixedNegativeValues n (negCountFor t n) :: δ', ?_, ?_⟩
        · have hgoal := ih3 i j
          rw [clipColsNamed_header] at hgoal
          rw [hgoal, getCell_clipColsNamed]
          by_cases hjn : t.header.getD j "" = n
          · have hmem2 : t.header.getD j "" ∈ n :: ns := by
              rw [hjn]; exact List.mem_cons_self n ns
            rw [if_pos hjn, if_pos hmem2]
            by_cases hjns : t.header.getD j "" ∈ ns
            · rw [if_pos hjns, clipNonneg_idem]
            · rw [if_neg hjns]
          · rw [if_neg hjn]
            by_cases hjns : t.header.getD j "" ∈ ns
            · rw [if_pos hjns, if_pos (List.mem_cons_of_mem n hjns)]
            · have hnot : t.header.getD j "" ∉ n :: ns := by
                intro hc
                rcases List.mem_cons.mp hc with hc | hc
                · exact hjn hc
                · exact hjns hc
              rw [if_neg hjns, if_neg hnot]
        · rw [ih4, List.append_assoc, List.singleton_append]
        · intro e he
          rcases List.mem_cons.mp he with he | he
          · exact ⟨n, negCountFor t n, List.mem_cons_self n ns, hneg, he⟩
          · obtain ⟨nm, k, hnm, hk, hek⟩ := ih5 e he
            exact ⟨nm, k, List.mem_cons_of_mem n hnm, hk, hek⟩
      · have hstep : validateFoldStep (t, l) n = (t, l) := by
          simp [validateFoldStep, hmem, hneg]
        rw [hstep]
        obtain ⟨ih1, ih2, ih3, δ', ih4, ih5⟩ := validateFold_char ns t l hns'
        have hzero : negCountFor t n = 0 := Nat.eq_zero_of_not_pos hneg
        refine ⟨ih1, ih2, fun i j => ?_, δ', ih4, fun e he => ?_⟩
        · rw [ih3 i j]
          by_cases hjn : t.header.getD j "" = n
          · have hmem2 : t.header.getD j "" ∈ n :: ns := by
              rw [hjn]; exact List.mem_cons_self n ns
            rw [if_pos hmem2]
            by_cases hjns : t.header.getD j "" ∈ ns
            · rw [if_pos hjns]
            · rw [if_neg hjns]
              by_cases hjlt : j < t.header.length
              · cases hcell : getCell (t.rows.getD i []) j with
                | none => rfl
                | some v =>
                  have hnn := cell_nonneg_of_negCount_zero t n hzero i j v hjlt hjn hcell
                  simp [clipNonneg, hnn]
              · exfalso
                rw [getD_of_length_le "" t.header j (le_of_not_lt hjlt)] at hjn
                exact hn_ne hjn.symm
          · by_cases hjns : t.header.getD j "" ∈ ns
            · rw [if_pos hjns, if_pos (List.mem_cons_of_mem n hjns)]
            · have hnot : t.header.getD j "" ∉ n :: ns := by
                intro hc
                rcases List.mem_cons.mp hc with hc | hc
                · exact hjn hc
                · exact hjns hc
              rw [if_neg hjns, if_neg hnot]
        · obtain ⟨nm, k, hnm, hk, hek⟩ := ih5 e he
          exact ⟨nm, k, List.mem_cons_of_mem n hnm, hk, hek⟩
    · have hstep : validateFoldStep (t, l) n = (t, l) := by
        simp [validateFoldStep, hmem]
      rw [hstep]
      obtain ⟨ih1, ih2, ih3, δ', ih4, ih5⟩ := validateFold_char ns t l hns'
      refine ⟨ih1, ih2, fun i j => ?_, δ', ih4, fun e he => ?_⟩
      · rw [ih3 i j]
        by_cases hjn : t.header.getD j "" = n
        · exact (hgetn' j hjn hmem).elim
        · by_cases hjns : t.header.getD j "" ∈ ns
          · rw [if_pos hjns, if_pos (List.mem_cons_of_mem n hjns)]
          · have hnot : t.header.getD j "" ∉ n :: ns := by
              intro hc
              rcases List.mem_cons.mp hc with hc | hc
              · exact hjn hc
              · exact hjns hc
            rw [if_neg hjns, if_neg hnot]
      · obtain ⟨nm, k, hnm, hk, hek⟩ := ih5 e he
        exact ⟨nm, k, List.mem_cons_of_mem n hnm, hk, hek⟩

theorem validateFold_change_of_log :
    ∀ (ns : List String) (t : Table) (l : List LogEntry), (∀ n ∈ ns, n ≠ "") →
      (ns.foldl validateFoldStep (t, l)).2 ≠ l → (ns.foldl validateFoldStep (t, l)).1 ≠ t
  | [], _, _, _, h => absurd rfl h
  | n :: ns, t, l, hns, h => by
    have hns' : ∀ m ∈ ns, m ≠ "" := fun m hm => hns m (List.mem_cons_of_mem n hm)
    by_cases hmem : n ∈ t.header
    · by_cases hneg : 0 < negCountFor t n
      · obtain ⟨j, i, v, hjlt, hjname, hcell, hvneg⟩ := neg_cell_of_negCount_pos t n hneg
        intro heq
        have hc := ((validateFold_char (n :: ns) t l hns).2.2.1) i j
        have hmem2 : t.header.getD j "" ∈ n :: ns := by
          rw [hjname]; exact List.mem_cons_self n ns
        rw [if_pos hmem2, hcell, heq] at hc
        have hclip : clipNonneg (some v) = some 0 := by simp [clipNonneg, hvneg]
        rw [hclip, hcell] at hc
        have hv0 : v = 0 := by injection hc
        exact absurd hv0 (ne_of_lt hvneg)
      · have hstep : validateFoldStep (t, l) n = (t, l) := by
          simp [validateFoldStep, hmem, hneg]
        rw [List.foldl_cons, hstep] at h ⊢
        exact validateFold_change_of_log ns t l hns' h
    · have hstep : validateFoldStep (t, l) n = (t, l) := by
        simp [validateFoldStep, hmem]
      rw [List.foldl_cons, hstep] at h ⊢
      exact validateFold_change_of_log ns t l hns' h

/-- C10: `validate_irradiance_values` leaves the header and the number
of rows unchanged, and transforms every cell as follows: in a column
whose name lies in the irradiance group the cell is clipped at zero
(missing stays missing, a non-negative value is unchanged, a negative
value becomes 0), and in every other column the cell is unchanged. -/
theorem c10_validate_frame_effect (t : Table) :
    (validateIrradianceValues t).1.header = t.header ∧
    (validateIrradianceValues t).1.rows.length = t.rows.length ∧
    ∀ i j, getCell ((validateIrradianceValues t).1.rows.getD i []) j =
      if t.header.getD j "" ∈ irradianceCols
      then clipNonneg (getCell (t.rows.getD i []) j)
      else getCell (t.rows.getD i []) j := by
  obtain ⟨h1, h2, h3, _⟩ := validateFold_char irradianceCols t [] (by decide)
  exact ⟨h1, h2, h3⟩

/-- C2: after the validate-irradiance step, every non-missing value in
every irradiance-group column present in the table is non-negative. -/
theorem c2_validate_nonneg (t : Table) (i j : ℕ) (v : ℚ)
    (hcol : t.header.getD j "" ∈ irradianceCols)
    (hget : getCell ((validateIrradianceValues t).1.rows.getD i []) j = some v) :
    0 ≤ v := by
  have h3 := (validateFold_char irradianceCols t [] (by decide)).2.2.1 i j
  simp only [validateIrradianceValues] at hget
  rw [h3, if_pos hcol] at hget
  exact clipNonneg_nonneg _ v hget

/-- Witness for C2 at a concrete table: the clipped cell is `some 0`
and the theorem yields its non-negativity. -/
theorem c2_validate_nonneg_witness :
    getCell ((validateIrradianceValues ⟨["GHI"], [[some (-5)]]⟩).1.rows.getD 0 []) 0 = some 0 ∧
      (0 : ℚ) ≤ 0 :=
  ⟨by decide, c2_validate_nonneg ⟨["GHI"], [[some (-5)]]⟩ 0 0 0 (by decide) (by decide)⟩

/-! ### Duplicate removal -/

/-- C9: `remove_duplicates` keeps the first occurrence of each group of
identical rows (the left-to-right keep-first scan) and the surviving
rows form a sublist of the input, so their relative order is
preserved. -/
theorem c9_remove_duplicates_keep_first (t : Table) :
    (removeDuplicatesStep t).1.rows = keepFirstOccurrences t.rows ∧
    List.Sublist (removeDuplicatesStep t).1.rows t.rows := by
  constructor
  · show dedupFirst t.rows = keepFirstOccurrences t.rows
    have h := foldl_keepFirst t.rows ([] : List Row)
    rw [keepFirstOccurrences]
    refine Eq.trans ?_ h.symm
    simp
  · exact dedupFirst_sublist t.rows

/-! ### Z-score outlier removal -/

theorem zscoreFold_eq (thr : ℚ) :
    ∀ (cols : List String) (t : Table),
      cols.foldl (zscorePass thr) t = ⟨t.header, specZscoreSurvivors thr t.header cols t.rows⟩
  | [], t => by
    rw [List.foldl_nil, specZscoreSurvivors]
  | c :: cs, t => by
    rw [List.foldl_cons]
    cases hidx : firstIdxOf c t.header with
    | none =>
      have hpass : zscorePass thr t c = t := by rw [zscorePass, hidx]
      rw [hpass, zscoreFold_eq thr cs t, specZscoreSurvivors, hidx]
    | some j =>
      have hpass : zscorePass thr t c = ⟨t.header, specZscoreFilter thr j t.rows⟩ := by
        rw [zscorePass, hidx]
        rfl
      rw [hpass, zscoreFold_eq thr cs ⟨t.header, specZscoreFilter thr j t.rows⟩,
        specZscoreSurvivors, hidx]

theorem specZscoreSurvivors_sublist (thr : ℚ) (hdr : List String) :
    ∀ (cols : List String) (rs : List Row),
      List.Sublist (specZscoreSurvivors thr hdr cols rs) rs
  | [], rs => by
    rw [specZscoreSurvivors]
  | c :: cs, rs => by
    rw [specZscoreSurvivors]
    cases hidx : firstIdxOf c hdr with
    | none => exact specZscoreSurvivors_sublist thr hdr cs rs
    | some j =>
      exact (specZscoreSurvivors_sublist thr hdr cs _).trans (List.filter_sublist rs)

/-- C4: `remove_outliers_zscore` removes whole rows column by column in
list order — the result equals the sequential-survivor computation in
which column `k`'s mean and variance are recomputed over the non-missing
values of the rows that survived columns `1..k−1` — and the surviving
rows are a sublist of the input rows. -/
theorem c4_zscore_sequential (cols : List String) (thr : ℚ) (t : Table) :
    (removeOutliersZscore cols thr t).1 =
      ⟨t.header, specZscoreSurvivors thr t.header cols t.rows⟩ ∧
    List.Sublist (removeOutliersZscore cols thr t).1.rows t.rows := by
  have h1 : (removeOutliersZscore cols thr t).1 = cols.foldl (zscorePass thr) t := rfl
  rw [h1, zscoreFold_eq thr cols t]
  exact ⟨rfl, specZscoreSurvivors_sublist thr t.header cols t.rows⟩

/-! ### Quality score -/

theorem missingCells_le_totalCells (t : Table) : missingCells t ≤ totalCells t := by
  unfold missingCells totalCells
  have hb : ∀ x ∈ (List.range t.header.length).map
      (fun j => ((colCells t j).filter Option.isNone).length), x ≤ t.rows.length := by
    intro x hx
    obtain ⟨j, _, hj⟩ := List.mem_map.mp hx
    rw [← hj]
    calc ((colCells t j).filter Option.isNone).length
        ≤ (colCells t j).length := List.length_filter_le _ _
    _ = t.rows.length := by simp [colCells]
  calc ((List.range t.header.length).map
          (fun j => ((colCells t j).filter Option.isNone).length)).sum
      ≤ ((List.range t.header.length).map
          (fun j => ((colCells t j).filter Option.isNone).length)).length * t.rows.length :=
        sum_le_length_mul _ _ hb
  _ = t.header.length * t.rows.length := by simp
  _ = t.rows.length * t.header.length := Nat.mul_comm _ _

/-- C3: `data_quality_score` returns the three sub-scores by the spec's
formulas — completeness `(total − missing)/total·100`, validity
`100 − neg/rows·100`, uniqueness `(rows − duplicates)/rows·100` — and
combines them with weights 0.4/0.4/0.2; for a table with no missing
cell, no negative irradiance reading and no duplicate row all four
metrics equal 100. -/
theorem c3_quality_score (t : Table) (hr : 0 < t.rows.length) (hc : 0 < t.header.length) :
    ((dataQualityScore t).completeness
        = (((totalCells t : ℚ) - (missingCells t : ℚ)) / (totalCells t : ℚ)) * 100 ∧
      (dataQualityScore t).validity
        = 100 - (((negIrradianceCount t : ℚ) / (t.rows.length : ℚ)) * 100) ∧
      (dataQualityScore t).uniqueness
        = (((t.rows.length : ℚ) - (dupRowCount t : ℚ)) / (t.rows.length : ℚ)) * 100 ∧
      (dataQualityScore t).overallQuality
        = (dataQualityScore t).completeness * (4 / 10)
          + (dataQualityScore t).validity * (4 / 10)
          + (dataQualityScore t).uniqueness * (2 / 10)) ∧
    (missingCells t = 0 → negIrradianceCount t = 0 → dupRowCount t = 0 →
      (dataQualityScore t).completeness = 100 ∧ (dataQualityScore t).validity = 100 ∧
      (dataQualityScore t).uniqueness = 100 ∧ (dataQualityScore t).overallQuality = 100) := by
  have hT : (0 : ℚ) < (totalCells t : ℚ) := by
    exact_mod_cast Nat.mul_pos hr hc
  have hR : (0 : ℚ) < (t.rows.length : ℚ) := by exact_mod_cast hr
  have hcomp : (dataQualityScore t).completeness
      = (((totalCells t : ℚ) - (missingCells t : ℚ)) / (totalCells t : ℚ)) * 100 := rfl
  have hval : (dataQualityScore t).validity
      = 100 - (((negIrradianceCount t : ℚ) / (t.rows.length : ℚ)) * 100) := rfl
  have huniq : (dataQualityScore t).uniqueness
      = (((t.rows.length : ℚ) - (dupRowCount t : ℚ)) / (t.rows.length : ℚ)) * 100 := rfl
  have hov : (dataQualityScore t).overallQuality
      = (dataQualityScore t).completeness * (4 / 10)
        + (dataQualityScore t).validity * (4 / 10)
        + (dataQualityScore t).uniqueness * (2 / 10) := rfl
  refine ⟨⟨hcomp, hval, huniq, hov⟩, fun hm hn hd => ?_⟩
  have h1 : (dataQualityScore t).completeness = 100 := by
    rw [hcomp, hm]
    push_cast
    rw [sub_zero, div_self (ne_of_gt hT), one_mul]
  have h2 : (dataQualityScore t).validity = 100 := by
    rw [hval, hn]
    push_cast
    rw [zero_div, zero_mul, sub_zero]
  have h3 : (dataQualityScore t).uniqueness = 100 := by
    rw [huniq, hd]
    push_cast
    rw [sub_zero, div_self (ne_of_gt hR), one_mul]
  refine ⟨h1, h2, h3, ?_⟩
  rw [hov, h1, h2, h3]
  norm_num

/-- Witness for C3 on a concrete clean two-row table: all hypotheses
hold and the overall quality is 100. -/
theorem c3_quality_score_witness :
    0 < (Table.mk ["GHI"] [[some 1], [some 2]]).rows.length ∧
      (dataQualityScore ⟨["GHI"], [[some 1], [some 2]]⟩).overallQuality = 100 :=
  ⟨by decide,
    ((c3_quality_score ⟨["GHI"], [[some 1], [some 2]]⟩ (by decide) (by decide)).2
      (by decide) (by decide) (by decide)).2.2.2⟩

/-- C6 counterexample: one row with all five irradiance columns at −1
drives validity to −400 and the overall quality to −100, both outside
`[0, 100]`, although the table is non-empty. -/
theorem c6_counterexample :
    0 < c6BadTable.rows.length ∧ 0 < c6BadTable.header.length ∧
    (dataQualityScore c6BadTable).validity = -400 ∧
    (dataQualityScore c6BadTable).overallQuality = -100 := by
  decide

/-- C6 (amended): for a non-empty table completeness and uniqueness lie
in `[0, 100]` and validity is at most 100; validity and the overall
score also lie within `[0, 100]` provided the count of negative
irradiance readings does not exceed the row count (each negative
reading subtracts a full percent-of-rows, and several irradiance
columns can each contribute, so validity can drop below 0). -/
theorem c6_quality_bounds (t : Table) (hr : 0 < t.rows.length) (hc : 0 < t.header.length) :
    (0 ≤ (dataQualityScore t).completeness ∧ (dataQualityScore t).completeness ≤ 100) ∧
    (0 ≤ (dataQualityScore t).uniqueness ∧ (dataQualityScore t).uniqueness ≤ 100) ∧
    (dataQualityScore t).validity ≤ 100 ∧
    (negIrradianceCount t ≤ t.rows.length →
      0 ≤ (dataQualityScore t).validity ∧
      0 ≤ (dataQualityScore t).overallQuality ∧
      (dataQualityScore t).overallQuality ≤ 100) := by
  have hT : (0 : ℚ) < (totalCells t : ℚ) := by
    exact_mod_cast Nat.mul_pos hr hc
  have hR : (0 : ℚ) < (t.rows.length : ℚ) := by exact_mod_cast hr
  have hcomp : (dataQualityScore t).completeness
      = (((totalCells t : ℚ) - (missingCells t : ℚ)) / (totalCells t : ℚ)) * 100 := rfl
  have hval : (dataQualityScore t).validity
      = 100 - (((negIrradianceCount t : ℚ) / (t.rows.length : ℚ)) * 100) := rfl
  have huniq : (dataQualityScore t).uniqueness
      = (((t.rows.length : ℚ) - (dupRowCount t : ℚ)) / (t.rows.length : ℚ)) * 100 := rfl
  have hov : (dataQualityScore t).overallQuality
      = (dataQualityScore t).completeness * (4 / 10)
        + (dataQualityScore t).validity * (4 / 10)
        + (dataQualityScore t).uniqueness * (2 / 10) := rfl
  have hm_le : (missingCells t : ℚ) ≤ (totalCells t : ℚ) := by
    exact_mod_cast missingCells_le_totalCells t
  have hm_nonneg : (0 : ℚ) ≤ (missingCells t : ℚ) := by positivity
  have hd_le : (dupRowCount t : ℚ) ≤ (t.rows.length : ℚ) := by
    exact_mod_cast Nat.sub_le _ _
  have hd_nonneg : (0 : ℚ) ≤ (dupRowCount t : ℚ) := by positivity
  have hn_nonneg : (0 : ℚ) ≤ (negIrradianceCount t : ℚ) := by positivity
  have hcb : 0 ≤ (dataQualityScore t).completeness ∧ (dataQualityScore t).completeness ≤ 100 := by
    rw [hcomp]
    constructor
    · apply mul_nonneg _ (by norm_num)
      exact div_nonneg (by linarith) (le_of_lt hT)
    · have hle1 : ((totalCells t : ℚ) - (missingCells t : ℚ)) / (totalCells t : ℚ) ≤ 1 :=
        (div_le_one hT).mpr (by linarith)
      nlinarith [hle1]
  have hub : 0 ≤ (dataQualityScore t).uniqueness ∧ (dataQualityScore t).uniqueness ≤ 100 := by
    rw [huniq]
    constructor
    · apply mul_nonneg _ (by norm_num)
      exact div_nonneg (by linarith) (le_of_lt hR)
    · have hle1 : ((t.rows.length : ℚ) - (dupRowCount t : ℚ)) / (t.rows.length : ℚ) ≤ 1 :=
        (div_le_one hR).mpr (by linarith)
      nlinarith [hle1]
  have hv_le : (dataQualityScore t).validity ≤ 100 := by
    rw [hval]
    have : 0 ≤ ((negIrradianceCount t : ℚ) / (t.rows.length : ℚ)) * 100 :=
      mul_nonneg (div_nonneg hn_nonneg (le_of_lt hR)) (by norm_num)
    linarith
  refine ⟨hcb, hub, hv_le, fun hle => ?_⟩
  have hv_ge : 0 ≤ (dataQualityScore t).validity := by
    rw [hval]
    have h1 : (negIrradianceCount t : ℚ) / (t.rows.length : ℚ) ≤ 1 := by
      apply (div_le_one hR).mpr
      exact_mod_cast hle
    nlinarith [h1]
  refine ⟨hv_ge, ?_, ?_⟩
  · rw [hov]
    nlinarith [hcb.1, hub.1, hv_ge]
  · rw [hov]
    nlinarith [hcb.2, hub.2, hv_le]

/-- Witness for C6's amended bounds at a concrete one-row table. -/
theorem c6_quality_bounds_witness :
    0 < (Table.mk ["GHI"] [[some 1]]).rows.length ∧
      0 ≤ (dataQualityScore ⟨["GHI"], [[some 1]]⟩).completeness :=
  ⟨by decide, (c6_quality_bounds ⟨["GHI"], [[some 1]]⟩ (by decide) (by decide)).1.1⟩

/-! ### Loader file selection -/

theorem lexLeChars_total : ∀ as bs : List Char, lexLeChars as bs = true ∨ lexLeChars bs as = true
  | [], _ => Or.inl rfl
  | _ :: _, [] => Or.inr rfl
  | a :: as, b :: bs => by
    by_cases hab : a = b
    · subst hab
      rcases lexLeChars_total as bs with h | h
      · left; simp [lexLeChars, h]
      · right; simp [lexLeChars, h]
    · rcases lt_or_gt_of_ne hab with h | h
      · left; simp [lexLeChars, hab, h]
      · right; simp [lexLeChars, Ne.symm hab, h]

theorem lexLeChars_trans :
    ∀ as bs cs : List Char,
      lexLeChars as bs = true → lexLeChars bs cs = true → lexLeChars as cs = true
  | [], _, _, _, _ => rfl
  | _ :: _, [], _, hab, _ => by simp [lexLeChars] at hab
  | _ :: _, _ :: _, [], _, hbc => by simp [lexLeChars] at hbc
  | a :: as, b :: bs, c :: cs, hab, hbc => by
    by_cases h1 : a = b
    · subst h1
      by_cases h2 : a = c
      · subst h2
        simp only [lexLeChars, if_pos rfl] at hab hbc ⊢
        exact lexLeChars_trans as bs cs hab hbc
      · simp only [lexLeChars, if_pos rfl] at hab
        simp only [lexLeChars, if_neg h2] at hbc ⊢
        exact hbc
    · by_cases h2 : b = c
      · subst h2
        simp only [lexLeChars, if_neg h1] at hab ⊢
        exact hab
      · simp only [lexLeChars, if_neg h1, decide_eq_true_eq] at hab
        simp only [lexLeChars, if_neg h2, decide_eq_true_eq] at hbc
        have hac : a < c := lt_trans hab hbc
        simp [lexLeChars, ne_of_lt hac, hac]

theorem sortedCandidates_headD_min (cs : List String) (hne : cs ≠ []) :
    (sortedCandidates cs).headD "" ∈ cs ∧
      ∀ g ∈ cs, strLeB ((sortedCandidates cs).headD "") g = true := by
  haveI hT : IsTotal String (fun a b => strLeB a b = true) :=
    ⟨fun a b => lexLeChars_total a.data b.data⟩
  haveI hTr : IsTrans String (fun a b => strLeB a b = true) :=
    ⟨fun a b c => lexLeChars_trans a.data b.data c.data⟩
  have hperm := List.perm_insertionSort (fun a b => strLeB a b = true) cs
  have hsorted := List.sorted_insertionSort (fun a b => strLeB a b = true) cs
  simp only [sortedCandidates]
  cases hs : List.insertionSort (fun a b => strLeB a b = true) cs with
  | nil =>
    rw [hs] at hperm
    exact absurd hperm.symm.eq_nil hne
  | cons x xs =>
    rw [hs] at hperm hsorted
    simp only [List.headD_cons]
    refine ⟨hperm.subset (List.mem_cons_self x xs), fun g hg => ?_⟩
    have hg2 : g ∈ x :: xs := hperm.symm.subset hg
    rcases List.mem_cons.mp hg2 with h | h
    · subst h
      have htot := lexLeChars_total g.data g.data
      rcases htot with h | h <;> exact h
    · exact List.rel_of_sorted_cons hsorted g h

/-- C7: `load_country_data` fails with the not-found error exactly when
no raw candidate file matches the normalised country name; with one or
more candidates it never fails and deterministically returns a
candidate that is lexicographically least among all candidates (the
first after sorting). -/
theorem c7_loader_selection (files : List String) (country : String) :
    (loadCountryData files country = Except.error LoadError.notFound ↔
      candidateFiles files country = []) ∧
    ∀ f, loadCountryData files country = Except.ok f →
      f ∈ candidateFiles files country ∧
        ∀ g ∈ candidateFiles files country, strLeB f g = true := by
  by_cases hcs : candidateFiles files country = []
  · refine ⟨⟨fun _ => hcs, fun _ => ?_⟩, fun f hf => ?_⟩
    · simp only [loadCountryData, if_pos hcs]
    · simp only [loadCountryData, if_pos hcs] at hf
      exact absurd hf (by simp)
  · have hok : loadCountryData files country
        = Except.ok ((sortedCandidates (candidateFiles files country)).headD "") := by
      simp only [loadCountryData, if_neg hcs]
    refine ⟨⟨fun h => ?_, fun h => absurd h hcs⟩, fun f hf => ?_⟩
    · rw [hok] at h
      exact absurd h (by simp)
    · rw [hok] at hf
      have hfeq : f = (sortedCandidates (candidateFiles files country)).headD "" := by
        injection hf with h
        exact h.symm
      rw [hfeq]
      exact sortedCandidates_headD_min (candidateFiles files country) hcs

/-- Witness for C7: among two matching raw files for country "benin"
the loader picks the lexicographically first. -/
theorem c7_loader_selection_witness :
    loadCountryData ["togo_clean.csv", "Benin-malanville.csv", "benin2.csv", "readme.txt"] "benin"
        = Except.ok "Benin-malanville.csv" ∧
      "Benin-malanville.csv"
          ∈ candidateFiles ["togo_clean.csv", "Benin-malanville.csv", "benin2.csv", "readme.txt"]
            "benin" ∧
      ∀ g ∈ candidateFiles ["togo_clean.csv", "Benin-malanville.csv", "benin2.csv", "readme.txt"]
          "benin", strLeB "Benin-malanville.csv" g = true :=
  ⟨by decide,
    (c7_loader_selection ["togo_clean.csv", "Benin-malanville.csv", "benin2.csv", "readme.txt"]
      "benin").2 "Benin-malanville.csv" (by decide)⟩

/-! ### Pipeline row counts and idempotence -/

theorem foldl_invariant {α β : Type} (f : α → β → α) (P : α → Prop) :
    ∀ (l : List β) (s : α), P s → (∀ s' b, P s' → P (f s' b)) → P (l.foldl f s)
  | [], _, hs, _ => hs
  | b :: l, s, hs, hstep => foldl_invariant f P l (f s b) (hstep s b hs) hstep

theorem fillColWith_rows_length (j : ℕ) (v : ℚ) (t : Table) :
    (fillColWith j v t).rows.length = t.rows.length := by
  simp [fillColWith]

theorem fillMissingWith_length (stat : List ℚ → ℚ) (t : Table) :
    (fillMissingWith stat t).rows.length = t.rows.length := by
  unfold fillMissingWith
  refine foldl_invariant _ (fun t' => t'.rows.length = t.rows.length) _ t rfl ?_
  intro s b hs
  dsimp only
  split_ifs with h
  · rw [fillColWith_rows_length]
    exact hs
  · exact hs

theorem handleMissing_median_length (th : ℚ) (t : Table) :
    (handleMissingValues Strategy.median th t).1.rows.length = t.rows.length := by
  simp only [handleMissingValues]
  rw [fillMissingWith_length]
  split_ifs with h
  · rfl
  · simp

theorem validate_rows_length (t : Table) :
    (validateIrradianceValues t).1.rows.length = t.rows.length :=
  (validateFold_char irradianceCols t [] (by decide)).2.1

theorem cleanPipeline_false_table (t : Table) :
    (cleanPipeline false t).1
      = (validateIrradianceValues
          (handleMissingValues Strategy.median (1 / 2) ⟨t.header, dedupFirst t.rows⟩).1).1 := by
  simp only [cleanPipeline, coerceNumericColumns, removeDuplicatesStep]
  simp

theorem cleanPipeline_false_log (t : Table) :
    (cleanPipeline false t).2
      = (removeDuplicatesStep t).2
        ++ (handleMissingValues Strategy.median (1 / 2) ⟨t.header, dedupFirst t.rows⟩).2
        ++ (validateIrradianceValues
            (handleMissingValues Strategy.median (1 / 2) ⟨t.header, dedupFirst t.rows⟩).1).2
        ++ [] := by
  simp only [cleanPipeline, coerceNumericColumns, removeDuplicatesStep]
  simp

theorem cleanPipeline_false_rows_length (t : Table) :
    (cleanPipeline false t).1.rows.length = (dedupFirst t.rows).length := by
  rw [cleanPipeline_false_table, validate_rows_length, handleMissing_median_length]

theorem negCountFor_validate_zero (t : Table) (nm : String) (hnm : nm ∈ irradianceCols) :
    negCountFor (validateIrradianceValues t).1 nm = 0 := by
  by_contra h
  have hpos : 0 < negCountFor (validateIrradianceValues t).1 nm := Nat.pos_of_ne_zero h
  obtain ⟨j, i, v, hjlt, hjname, hcell, hvneg⟩ :=
    neg_cell_of_negCount_pos (validateIrradianceValues t).1 nm hpos
  obtain ⟨h1, _, h3, _⟩ := validateFold_char irradianceCols t [] (by decide)
  have h1' : (validateIrradianceValues t).1.header = t.header := h1
  rw [h1'] at hjname
  have hc : getCell ((validateIrradianceValues t).1.rows.getD i []) j
      = if t.header.getD j "" ∈ irradianceCols
        then clipNonneg (getCell (t.rows.getD i []) j)
        else getCell (t.rows.getD i []) j := h3 i j
  rw [if_pos (by rw [hjname]; exact hnm)] at hc
  rw [hc] at hcell
  have := clipNonneg_nonneg _ v hcell
  exact absurd hvneg (not_lt.mpr this)

theorem negIrradianceCount_validate_zero (t : Table) :
    negIrradianceCount (validateIrradianceValues t).1 = 0 := by
  apply List.sum_eq_zero
  intro x hx
  obtain ⟨nm, hnm, hx⟩ := List.mem_map.mp hx
  rw [← hx]
  split_ifs with h
  · exact negCountFor_validate_zero t nm hnm
  · rfl

/-- C8 (amended): with `remove_outliers=False`, a second
`clean_pipeline` run on the first run's output preserves the row count
provided the first run's output contains no exact-duplicate rows
(median fill and negative-value clipping in the first run can make
previously distinct rows identical, and a second run then removes them
as duplicates); moreover the first run leaves no further negative
irradiance value to fix. -/
theorem c8_second_run_rowcount (t : Table)
    (hnodup : dedupFirst (cleanPipeline false t).1.rows = (cleanPipeline false t).1.rows) :
    (cleanPipeline false ((cleanPipeline false t).1)).1.rows.length
        = (cleanPipeline false t).1.rows.length ∧
      negIrradianceCount (cleanPipeline false t).1 = 0 := by
  constructor
  · rw [cleanPipeline_false_rows_length, hnodup]
  · rw [cleanPipeline_false_table]
    exact negIrradianceCount_validate_zero _

/-- C8 counterexample: on two distinct rows `[-1]` and `[0]` the first
pass clips `-1` to `0`, making the rows identical; the second pass then
removes one of them, so the row count drops from 2 to 1 even though
`remove_outliers` is off and no z-score boundary is involved. -/
theorem c8_counterexample :
    (cleanPipeline false c8BadTable).1.rows.length = 2 ∧
    (cleanPipeline false ((cleanPipeline false c8BadTable).1)).1.rows.length = 1 := by
  decide

/-- Witness for C8's amended statement at a table whose cleaned output
has no duplicate rows. -/
theorem c8_second_run_rowcount_witness :
    dedupFirst (cleanPipeline false ⟨["GHI"], [[some (-1)], [some 5]]⟩).1.rows
        = (cleanPipeline false ⟨["GHI"], [[some (-1)], [some 5]]⟩).1.rows ∧
      (cleanPipeline false ((cleanPipeline false ⟨["GHI"], [[some (-1)], [some 5]]⟩).1)).1.rows.length
        = (cleanPipeline false ⟨["GHI"], [[some (-1)], [some 5]]⟩).1.rows.length :=
  ⟨by decide, (c8_second_run_rowcount ⟨["GHI"], [[some (-1)], [some 5]]⟩ (by decide)).1⟩

/-! ### The pipeline scenario -/

theorem handleMissing_median_noop (th : ℚ) (hth : 0 ≤ th) (t : Table)
    (hwf : wfTable t) (hnm : noMissing t) :
    handleMissingValues Strategy.median th t = (t, []) := by
  have hcell : ∀ j, j < t.header.length → ∀ c ∈ colCells t j, c.isNone = false := by
    intro j hj c hcmem
    obtain ⟨r, hrmem, hr⟩ := List.mem_map.mp hcmem
    have hrlen : r.length = t.header.length := hwf r hrmem
    have hcr : getCell r j ∈ r := getD_mem_of_lt none r j (by omega)
    have hne := hnm r hrmem (getCell r j) hcr
    rw [← hr]
    cases h : getCell r j with
    | none => exact absurd h hne
    | some v => rfl
  have hfrac : ∀ j, j < t.header.length → missingFrac t j = 0 := by
    intro j hj
    have : (colCells t j).filter Option.isNone = [] := by
      refine List.filter_eq_nil.mpr (fun c hc => ?_)
      rw [hcell j hj c hc]
      simp
    rw [missingFrac, this]
    simp
  have hdrop : (List.range t.header.length).filter
      (fun j => decide (missingFrac t j > th)) = [] := by
    refine List.filter_eq_nil.mpr (fun j hj => ?_)
    have hjlt : j < t.header.length := List.mem_range.mp hj
    rw [hfrac j hjlt]
    simp only [decide_eq_true_eq, gt_iff_lt, not_lt]
    exact hth
  have hfill : fillMissingWith medianQ t = t := by
    unfold fillMissingWith
    refine foldl_fixed _ t _ (fun j hj => ?_)
    have hjlt : j < t.header.length := List.mem_range.mp hj
    dsimp only
    rw [if_neg]
    intro hand
    obtain ⟨hany, _⟩ := hand
    obtain ⟨c, hcmem, hcisnone⟩ := List.any_eq_true.mp hany
    rw [hcell j hjlt c hcmem] at hcisnone
    exact Bool.false_ne_true hcisnone
  simp only [handleMissingValues, hdrop]
  simp [hfill]

theorem colNeg_count_eq (j : ℕ) :
    ∀ rows : List Row,
      ((nonNull (rows.map (fun r => getCell r j))).filter (fun v => decide (v < 0))).length
        = (rows.filter (negRowAt j)).length
  | [] => rfl
  | r :: rows => by
    have ih := colNeg_count_eq j rows
    cases hc : getCell r j with
    | none =>
      have hneg : negRowAt j r = false := by simp [negRowAt, hc]
      show ((List.filterMap id ((r :: rows).map (fun r => getCell r j))).filter
          (fun v => decide (v < 0))).length = ((r :: rows).filter (negRowAt j)).length
      rw [List.map_cons, hc, List.filterMap_cons_none rfl, List.filter_cons, hneg]
      simpa [nonNull] using ih
    | some v =>
      have hneg : negRowAt j r = decide (v < 0) := by simp [negRowAt, hc]
      show ((List.filterMap id ((r :: rows).map (fun r => getCell r j))).filter
          (fun v => decide (v < 0))).length = ((r :: rows).filter (negRowAt j)).length
      rw [List.map_cons, hc,
        @List.filterMap_cons_some Cell ℚ id (some v) ((rows).map (fun r => getCell r j)) v rfl,
        List.filter_cons, List.filter_cons, hneg]
      by_cases hv : v < 0
      · have hd : decide (v < 0) = true := by simpa using hv
        rw [hd, if_pos rfl, if_pos rfl, List.length_cons, List.length_cons]
        have h2 : (List.filter (fun v => decide (v < 0))
            (List.filterMap id (rows.map (fun r => getCell r j)))).length
            = (rows.filter (negRowAt j)).length := ih
        omega
      · have hd : decide (v < 0) = false := by simpa using hv
        rw [hd, if_neg Bool.false_ne_true, if_neg Bool.false_ne_true]
        exact ih

theorem header_mem_of_colIdxs (t : Table) (name : String) (j : ℕ)
    (h : j ∈ colIdxsNamed t name) : name ∈ t.header := by
  obtain ⟨hlt, hname⟩ := (mem_colIdxsNamed t name j).mp h
  exact hname ▸ getD_mem_of_lt "" t.header j hlt

/-- C1 (amended): for a 100-row table with a unique `GHI` column, no
missing values, five rows removed as exact duplicates, and three
pairwise-distinct rows with a negative `GHI` value,
`clean_pipeline(remove_outliers=False)` returns 95 rows with no
negative `GHI` value, and the log carries exactly one
removed-duplicates entry with count 5 and exactly one
fixed-negative-values entry for `GHI` with count 3.  (Distinctness of
the negative rows is needed: a duplicated negative row is removed by
deduplication before the negatives are counted.) -/
theorem c1_pipeline_scenario (t : Table) (j0 : ℕ)
    (h100 : t.rows.length = 100)
    (hwf : wfTable t)
    (hnm : noMissing t)
    (hdup : t.rows.length - (dedupFirst t.rows).length = 5)
    (hghi : colIdxsNamed t "GHI" = [j0])
    (hneg3 : (t.rows.filter (negRowAt j0)).length = 3)
    (hnodup : (t.rows.filter (negRowAt j0)).Nodup) :
    (cleanPipeline false t).1.rows.length = 95 ∧
    (∀ i v, getCell ((cleanPipeline false t).1.rows.getD i []) j0 = some v → 0 ≤ v) ∧
    (cleanPipeline false t).2.filter isRemovedDuplicatesEntry
        = [LogEntry.removedDuplicates 5] ∧
    (cleanPipeline false t).2.filter (isFixedNegativeFor "GHI")
        = [LogEntry.fixedNegativeValues "GHI" 3] := by
  have hdle : (dedupFirst t.rows).length ≤ t.rows.length := (dedupFirst_sublist t.rows).length_le
  have hD95 : (dedupFirst t.rows).length = 95 := by omega
  have hwf1 : wfTable ⟨t.header, dedupFirst t.rows⟩ := fun r hr =>
    hwf r ((dedupFirst_sublist t.rows).subset hr)
  have hnm1 : noMissing ⟨t.header, dedupFirst t.rows⟩ := fun r hr =>
    hnm r ((dedupFirst_sublist t.rows).subset hr)
  have hm := handleMissing_median_noop (1 / 2) (by norm_num) ⟨t.header, dedupFirst t.rows⟩ hwf1 hnm1
  have hm1 : (handleMissingValues Strategy.median (1 / 2) ⟨t.header, dedupFirst t.rows⟩).1
      = ⟨t.header, dedupFirst t.rows⟩ := by rw [hm]
  have hm2 : (handleMissingValues Strategy.median (1 / 2) ⟨t.header, dedupFirst t.rows⟩).2
      = [] := by rw [hm]
  have hj0 : j0 ∈ colIdxsNamed t "GHI" := by
    rw [hghi]; exact List.mem_cons_self j0 []
  obtain ⟨hj0lt, hj0name⟩ := (mem_colIdxsNamed t "GHI" j0).mp hj0
  have hmemGHI : "GHI" ∈ t.header := header_mem_of_colIdxs t "GHI" j0 hj0
  have hcolIdx : colIdxsNamed ⟨t.header, dedupFirst t.rows⟩ "GHI" = [j0] := hghi
  have hcount : negCountFor ⟨t.header, dedupFirst t.rows⟩ "GHI" = 3 := by
    show ((colIdxsNamed ⟨t.header, dedupFirst t.rows⟩ "GHI").map
      (fun j => ((nonNull (colCells ⟨t.header, dedupFirst t.rows⟩ j)).filter
        (fun v => decide (v < 0))).length)).sum = 3
    rw [hcolIdx]
    simp only [List.map_cons, List.map_nil, List.sum_cons, List.sum_nil, Nat.add_zero]
    have h5 : ((nonNull (colCells ⟨t.header, dedupFirst t.rows⟩ j0)).filter
        (fun v => decide (v < 0))).length
        = ((dedupFirst t.rows).filter (negRowAt j0)).length :=
      colNeg_count_eq j0 (dedupFirst t.rows)
    rw [h5, filter_dedupFirst (negRowAt j0) t.rows,
      dedupFirst_eq_self_of_nodup _ hnodup, hneg3]
  have hstep1 : validateFoldStep (⟨t.header, dedupFirst t.rows⟩, ([] : List LogEntry)) "GHI"
      = (clipColsNamed ⟨t.header, dedupFirst t.rows⟩ "GHI",
          [LogEntry.fixedNegativeValues "GHI" 3]) := by
    simp [validateFoldStep, hmemGHI, hcount]
  have hvfold : validateIrradianceValues ⟨t.header, dedupFirst t.rows⟩
      = List.foldl validateFoldStep
          (validateFoldStep (⟨t.header, dedupFirst t.rows⟩, []) "GHI")
          ["DNI", "DHI", "ModA", "ModB"] := rfl
  obtain ⟨k1, k2, k3, δ, hδ, hδshape⟩ :=
    validateFold_char ["DNI", "DHI", "ModA", "ModB"]
      (clipColsNamed ⟨t.header, dedupFirst t.rows⟩ "GHI")
      [LogEntry.fixedNegativeValues "GHI" 3] (by decide)
  have hvlog : (validateIrradianceValues ⟨t.header, dedupFirst t.rows⟩).2
      = [LogEntry.fixedNegativeValues "GHI" 3] ++ δ := by
    rw [hvfold, hstep1]
    exact hδ
  have hrd : (removeDuplicatesStep t).2 = [LogEntry.removedDuplicates 5] := by
    show (if 0 < t.rows.length - (dedupFirst t.rows).length then
      [LogEntry.removedDuplicates (t.rows.length - (dedupFirst t.rows).length)] else []) = _
    rw [hdup]
    simp
  refine ⟨?_, ?_, ?_, ?_⟩
  · rw [cleanPipeline_false_rows_length, hD95]
  · intro i v hv
    rw [cleanPipeline_false_table, hm1] at hv
    obtain ⟨m1, m2, m3, _⟩ :=
      validateFold_char irradianceCols ⟨t.header, dedupFirst t.rows⟩ [] (by decide)
    have hc : getCell
        ((validateIrradianceValues ⟨t.header, dedupFirst t.rows⟩).1.rows.getD i []) j0
        = if (Table.mk t.header (dedupFirst t.rows)).header.getD j0 "" ∈ irradianceCols
          then clipNonneg (getCell ((Table.mk t.header (dedupFirst t.rows)).rows.getD i []) j0)
          else getCell ((Table.mk t.header (dedupFirst t.rows)).rows.getD i []) j0 := m3 i j0
    rw [if_pos (by
      show t.header.getD j0 "" ∈ irradianceCols
      rw [hj0name]
      decide)] at hc
    rw [hc] at hv
    exact clipNonneg_nonneg _ v hv
  · rw [cleanPipeline_false_log, hm1, hm2, hvlog, hrd]
    have hδ1 : δ.filter isRemovedDuplicatesEntry = [] := by
      refine List.filter_eq_nil.mpr (fun e he => ?_)
      obtain ⟨nm, k, _, _, hek⟩ := hδshape e he
      rw [hek]
      simp [isRemovedDuplicatesEntry]
    simp [isRemovedDuplicatesEntry, hδ1]
  · rw [cleanPipeline_false_log, hm1, hm2, hvlog, hrd]
    have hδ2 : δ.filter (isFixedNegativeFor "GHI") = [] := by
      refine List.filter_eq_nil.mpr (fun e he => ?_)
      obtain ⟨nm, k, hnm2, _, hek⟩ := hδshape e he
      rw [hek]
      have hne : nm ≠ "GHI" := by
        intro hcon
        rw [hcon] at hnm2
        exact absurd hnm2 (by decide)
      simp [isFixedNegativeFor, hne]
    simp [isFixedNegativeFor, hδ2]

set_option maxRecDepth 10000 in
/-- Witness for C1 at a concrete 100-row table with five duplicate rows
and three pairwise-distinct negative rows. -/
theorem c1_pipeline_scenario_witness :
    c1Table.rows.length = 100 ∧
      (cleanPipeline false c1Table).1.rows.length = 95 :=
  ⟨by decide,
    (c1_pipeline_scenario c1Table 0 (by decide) (by decide) (by decide) (by decide)
      (by decide) (by decide) (by decide)).1⟩

/-! ### Quantile interpolation bounds -/

theorem getD_eq_get {α : Type} (d : α) :
    ∀ (l : List α) (i : ℕ) (h : i < l.length), l.getD i d = l.get ⟨i, h⟩
  | _ :: _, 0, _ => rfl
  | _ :: xs, i + 1, h => getD_eq_get d xs i (Nat.lt_of_succ_lt_succ h)

theorem sorted_getD_mono (s : List ℚ) (hs : List.Sorted (· ≤ ·) s) (i j : ℕ)
    (hij : i ≤ j) (hj : j < s.length) : s.getD i 0 ≤ s.getD j 0 := by
  rw [getD_eq_get 0 s i (lt_of_le_of_lt hij hj), getD_eq_get 0 s j hj]
  exact hs.rel_get_of_le (Fin.mk_le_mk.mpr hij)

theorem interpAt_unfold (s : List ℚ) (pos : ℚ) :
    interpAt s pos = s.getD (⌊pos⌋).toNat 0
      + (pos - ((⌊pos⌋ : ℤ) : ℚ)) * (s.getD ((⌊pos⌋).toNat + 1) 0 - s.getD (⌊pos⌋).toNat 0) :=
  rfl

theorem length_pos_of_ne_nil {α : Type} {s : List α} (hne : s ≠ []) : 1 ≤ s.length := by
  cases s with
  | nil => exact absurd rfl hne
  | cons a l => simp

theorem toNat_floor_le_of_le (s : List ℚ) (pos : ℚ) (h0 : 0 ≤ pos)
    (h1 : pos ≤ (s.length : ℚ) - 1) (hn1 : 1 ≤ s.length) :
    (⌊pos⌋).toNat ≤ s.length - 1 := by
  have hfl0 : (0 : ℤ) ≤ ⌊pos⌋ := Int.floor_nonneg.mpr h0
  have hfle : ((⌊pos⌋ : ℤ) : ℚ) ≤ pos := Int.floor_le pos
  have hc : ((s.length - 1 : ℕ) : ℚ) = (s.length : ℚ) - 1 := by
    push_cast [Nat.cast_sub hn1]
    ring
  have h2 : ((⌊pos⌋ : ℤ) : ℚ) ≤ ((s.length - 1 : ℕ) : ℚ) := by rw [hc]; linarith
  have h3 : ⌊pos⌋ ≤ ((s.length - 1 : ℕ) : ℤ) := by exact_mod_cast h2
  omega

theorem interpAt_le (s : List ℚ) (hs : List.Sorted (· ≤ ·) s) (hne : s ≠ [])
    (B : ℚ) (hB : ∀ v ∈ s, v ≤ B) (pos : ℚ) (h0 : 0 ≤ pos)
    (h1 : pos ≤ (s.length : ℚ) - 1) : interpAt s pos ≤ B := by
  have hn1 : 1 ≤ s.length := length_pos_of_ne_nil hne
  have hfl0 : (0 : ℤ) ≤ ⌊pos⌋ := Int.floor_nonneg.mpr h0
  have hcast : (((⌊pos⌋).toNat : ℕ) : ℚ) = ((⌊pos⌋ : ℤ) : ℚ) := by
    exact_mod_cast congrArg (fun z : ℤ => (z : ℚ)) (Int.toNat_of_nonneg hfl0)
  have hfle : ((⌊pos⌋ : ℤ) : ℚ) ≤ pos := Int.floor_le pos
  have hflt : pos < ((⌊pos⌋ : ℤ) : ℚ) + 1 := Int.lt_floor_add_one pos
  have hlle : (⌊pos⌋).toNat ≤ s.length - 1 := toNat_floor_le_of_le s pos h0 h1 hn1
  rw [interpAt_unfold]
  by_cases hcase : (⌊pos⌋).toNat < s.length - 1
  · have hb1 := hB _ (getD_mem_of_lt 0 s (⌊pos⌋).toNat (by omega))
    have hb2 := hB _ (getD_mem_of_lt 0 s ((⌊pos⌋).toNat + 1) (by omega))
    nlinarith [hb1, hb2, hfle, hflt]
  · have hleq : (⌊pos⌋).toNat = s.length - 1 := by omega
    have hposc : ((⌊pos⌋ : ℤ) : ℚ) = (s.length : ℚ) - 1 := by
      rw [← hcast, hleq]
      push_cast [Nat.cast_sub hn1]
      ring
    have hzero : pos - ((⌊pos⌋ : ℤ) : ℚ) = 0 := by linarith
    rw [hzero, zero_mul, add_zero]
    exact hB _ (getD_mem_of_lt 0 s (⌊pos⌋).toNat (by omega))

theorem le_interpAt (s : List ℚ) (hs : List.Sorted (· ≤ ·) s) (hne : s ≠ [])
    (b : ℚ) (hb : ∀ v ∈ s, b ≤ v) (pos : ℚ) (h0 : 0 ≤ pos)
    (h1 : pos ≤ (s.length : ℚ) - 1) : b ≤ interpAt s pos := by
  have hn1 : 1 ≤ s.length := length_pos_of_ne_nil hne
  have hfl0 : (0 : ℤ) ≤ ⌊pos⌋ := Int.floor_nonneg.mpr h0
  have hcast : (((⌊pos⌋).toNat : ℕ) : ℚ) = ((⌊pos⌋ : ℤ) : ℚ) := by
    exact_mod_cast congrArg (fun z : ℤ => (z : ℚ)) (Int.toNat_of_nonneg hfl0)
  have hfle : ((⌊pos⌋ : ℤ) : ℚ) ≤ pos := Int.floor_le pos
  have hflt : pos < ((⌊pos⌋ : ℤ) : ℚ) + 1 := Int.lt_floor_add_one pos
  have hlle : (⌊pos⌋).toNat ≤ s.length - 1 := toNat_floor_le_of_le s pos h0 h1 hn1
  rw [interpAt_unfold]
  by_cases hcase : (⌊pos⌋).toNat < s.length - 1
  · have hb1 := hb _ (getD_mem_of_lt 0 s (⌊pos⌋).toNat (by omega))
    have hb2 := hb _ (getD_mem_of_lt 0 s ((⌊pos⌋).toNat + 1) (by omega))
    nlinarith [hb1, hb2, hfle, hflt]
  · have hleq : (⌊pos⌋).toNat = s.length - 1 := by omega
    have hposc : ((⌊pos⌋ : ℤ) : ℚ) = (s.length : ℚ) - 1 := by
      rw [← hcast, hleq]
      push_cast [Nat.cast_sub hn1]
      ring
    have hzero : pos - ((⌊pos⌋ : ℤ) : ℚ) = 0 := by linarith
    rw [hzero, zero_mul, add_zero]
    exact hb _ (getD_mem_of_lt 0 s (⌊pos⌋).toNat (by omega))

theorem interpAt_mono (s : List ℚ) (hs : List.Sorted (· ≤ ·) s) (hne : s ≠ [])
    (p1 p2 : ℚ) (h0 : 0 ≤ p1) (h12 : p1 ≤ p2) (h2 : p2 ≤ (s.length : ℚ) - 1) :
    interpAt s p1 ≤ interpAt s p2 := by
  have hn1 : 1 ≤ s.length := length_pos_of_ne_nil hne
  have h0' : 0 ≤ p2 := le_trans h0 h12
  have hfl1 : (0 : ℤ) ≤ ⌊p1⌋ := Int.floor_nonneg.mpr h0
  have hfl2 : (0 : ℤ) ≤ ⌊p2⌋ := Int.floor_nonneg.mpr h0'
  have hcast1 : (((⌊p1⌋).toNat : ℕ) : ℚ) = ((⌊p1⌋ : ℤ) : ℚ) := by
    exact_mod_cast congrArg (fun z : ℤ => (z : ℚ)) (Int.toNat_of_nonneg hfl1)
  have hcast2 : (((⌊p2⌋).toNat : ℕ) : ℚ) = ((⌊p2⌋ : ℤ) : ℚ) := by
    exact_mod_cast congrArg (fun z : ℤ => (z : ℚ)) (Int.toNat_of_nonneg hfl2)
  have hfle1 : ((⌊p1⌋ : ℤ) : ℚ) ≤ p1 := Int.floor_le p1
  have hflt1 : p1 < ((⌊p1⌋ : ℤ) : ℚ) + 1 := Int.lt_floor_add_one p1
  have hfle2 : ((⌊p2⌋ : ℤ) : ℚ) ≤ p2 := Int.floor_le p2
  have hflt2 : p2 < ((⌊p2⌋ : ℤ) : ℚ) + 1 := Int.lt_floor_add_one p2
  have hmono : ⌊p1⌋ ≤ ⌊p2⌋ := Int.floor_mono h12
  have hl12 : (⌊p1⌋).toNat ≤ (⌊p2⌋).toNat := Int.toNat_le_toNat hmono
  have hlle1 : (⌊p1⌋).toNat ≤ s.length - 1 :=
    toNat_floor_le_of_le s p1 h0 (le_trans h12 h2) hn1
  have hlle2 : (⌊p2⌋).toNat ≤ s.length - 1 := toNat_floor_le_of_le s p2 h0' h2 hn1
  rw [interpAt_unfold, interpAt_unfold]
  by_cases hc : (⌊p1⌋).toNat = (⌊p2⌋).toNat
  · have hfeq : ⌊p1⌋ = ⌊p2⌋ := by omega
    rw [hc, hfeq]
    by_cases hl : (⌊p2⌋).toNat < s.length - 1
    · have hd : s.getD (⌊p2⌋).toNat 0 ≤ s.getD ((⌊p2⌋).toNat + 1) 0 :=
        sorted_getD_mono s hs _ _ (Nat.le_succ _) (by omega)
      nlinarith [hd]
    · have hleq : (⌊p2⌋).toNat = s.length - 1 := by omega
      have hposc : ((⌊p2⌋ : ℤ) : ℚ) = (s.length : ℚ) - 1 := by
        rw [← hcast2, hleq]
        push_cast [Nat.cast_sub hn1]
        ring
      have hp1e : p1 = ((⌊p2⌋ : ℤ) : ℚ) := by
        rw [← hfeq] at hposc ⊢
        linarith
      have hp2e : p2 = ((⌊p2⌋ : ℤ) : ℚ) := by linarith
      rw [hp1e, hp2e]
      simp [Int.floor_intCast]
  · have hlt : (⌊p1⌋).toNat < (⌊p2⌋).toNat := lt_of_le_of_ne hl12 hc
    have hstep1 : s.getD (⌊p1⌋).toNat 0
        + (p1 - ((⌊p1⌋ : ℤ) : ℚ)) * (s.getD ((⌊p1⌋).toNat + 1) 0 - s.getD (⌊p1⌋).toNat 0)
        ≤ s.getD ((⌊p1⌋).toNat + 1) 0 := by
      have hd : s.getD (⌊p1⌋).toNat 0 ≤ s.getD ((⌊p1⌋).toNat + 1) 0 :=
        sorted_getD_mono s hs _ _ (Nat.le_succ _) (by omega)
      nlinarith [hd, hfle1, hflt1]
    have hstep2 : s.getD ((⌊p1⌋).toNat + 1) 0 ≤ s.getD (⌊p2⌋).toNat 0 :=
      sorted_getD_mono s hs _ _ (by omega) (by omega)
    have hstep3 : s.getD (⌊p2⌋).toNat 0
        ≤ s.getD (⌊p2⌋).toNat 0
          + (p2 - ((⌊p2⌋ : ℤ) : ℚ)) * (s.getD ((⌊p2⌋).toNat + 1) 0 - s.getD (⌊p2⌋).toNat 0) := by
      by_cases h2c : (⌊p2⌋).toNat < s.length - 1
      · have hd : s.getD (⌊p2⌋).toNat 0 ≤ s.getD ((⌊p2⌋).toNat + 1) 0 :=
          sorted_getD_mono s hs _ _ (Nat.le_succ _) (by omega)
        nlinarith [hd, hfle2]
      · have hleq2 : (⌊p2⌋).toNat = s.length - 1 := by omega
        have hposc : ((⌊p2⌋ : ℤ) : ℚ) = (s.length : ℚ) - 1 := by
          rw [← hcast2, hleq2]
          push_cast [Nat.cast_sub hn1]
          ring
        have hzero : p2 - ((⌊p2⌋ : ℤ) : ℚ) = 0 := by linarith
        rw [hzero, zero_mul]
        linarith
    linarith

theorem sorted_sortQ (l : List ℚ) :
    List.Sorted (· ≤ ·) (List.insertionSort (· ≤ ·) l) :=
  List.sorted_insertionSort (· ≤ ·) l

theorem sortQ_length (l : List ℚ) :
    (List.insertionSort (· ≤ ·) l).length = l.length :=
  (List.perm_insertionSort (· ≤ ·) l).length_eq

theorem sortQ_ne_nil (l : List ℚ) (hne : l ≠ []) :
    List.insertionSort (· ≤ ·) l ≠ [] := by
  intro hnil
  have := sortQ_length l
  rw [hnil] at this
  cases l with
  | nil => exact hne rfl
  | cons a t => simp at this

theorem quantileQ_le (l : List ℚ) (hne : l ≠ []) (q : ℚ) (hq0 : 0 ≤ q) (hq1 : q ≤ 1)
    (B : ℚ) (hB : ∀ v ∈ l, v ≤ B) : quantileQ l q ≤ B := by
  have hsne := sortQ_ne_nil l hne
  have hn1 : 1 ≤ (List.insertionSort (· ≤ ·) l).length := length_pos_of_ne_nil hsne
  refine interpAt_le _ (sorted_sortQ l) hsne B (fun v hv => hB v ?_) _ ?_ ?_
  · exact (List.mem_insertionSort (· ≤ ·)).mp hv
  · have : (0 : ℚ) ≤ ((List.insertionSort (· ≤ ·) l).length : ℚ) - 1 := by
      have : (1 : ℚ) ≤ ((List.insertionSort (· ≤ ·) l).length : ℚ) := by exact_mod_cast hn1
      linarith
    exact mul_nonneg hq0 this
  · have hg : (0 : ℚ) ≤ ((List.insertionSort (· ≤ ·) l).length : ℚ) - 1 := by
      have : (1 : ℚ) ≤ ((List.insertionSort (· ≤ ·) l).length : ℚ) := by exact_mod_cast hn1
      linarith
    nlinarith [hg]

theorem le_quantileQ (l : List ℚ) (hne : l ≠ []) (q : ℚ) (hq0 : 0 ≤ q) (hq1 : q ≤ 1)
    (b : ℚ) (hb : ∀ v ∈ l, b ≤ v) : b ≤ quantileQ l q := by
  have hsne := sortQ_ne_nil l hne
  have hn1 : 1 ≤ (List.insertionSort (· ≤ ·) l).length := length_pos_of_ne_nil hsne
  refine le_interpAt _ (sorted_sortQ l) hsne b (fun v hv => hb v ?_) _ ?_ ?_
  · exact (List.mem_insertionSort (· ≤ ·)).mp hv
  · have : (0 : ℚ) ≤ ((List.insertionSort (· ≤ ·) l).length : ℚ) - 1 := by
      have : (1 : ℚ) ≤ ((List.insertionSort (· ≤ ·) l).length : ℚ) := by exact_mod_cast hn1
      linarith
    exact mul_nonneg hq0 this
  · have hg : (0 : ℚ) ≤ ((List.insertionSort (· ≤ ·) l).length : ℚ) - 1 := by
      have : (1 : ℚ) ≤ ((List.insertionSort (· ≤ ·) l).length : ℚ) := by exact_mod_cast hn1
      linarith
    nlinarith [hg]

theorem quantileQ_q1_le_q3 (l : List ℚ) (hne : l ≠ []) :
    quantileQ l (1 / 4) ≤ quantileQ l (3 / 4) := by
  have hsne := sortQ_ne_nil l hne
  have hn1 : 1 ≤ (List.insertionSort (· ≤ ·) l).length := length_pos_of_ne_nil hsne
  have hg : (0 : ℚ) ≤ ((List.insertionSort (· ≤ ·) l).length : ℚ) - 1 := by
    have : (1 : ℚ) ≤ ((List.insertionSort (· ≤ ·) l).length : ℚ) := by exact_mod_cast hn1
    linarith
  refine interpAt_mono _ (sorted_sortQ l) hsne _ _ ?_ ?_ ?_
  · exact mul_nonneg (by norm_num) hg
  · nlinarith [hg]
  · nlinarith [hg]

/-! ### Outlier capping -/

theorem mapIdxFrom_eq_self {α : Type} (f : ℕ → α → α) :
    ∀ (k : ℕ) (r : List α), (∀ i c, r.get? i = some c → f (k + i) c = c) →
      mapIdxFrom f k r = r
  | _, [], _ => rfl
  | k, c :: cs, h => by
    rw [mapIdxFrom]
    have h0 : f k c = c := by
      have hh := h 0 c rfl
      simpa using hh
    rw [h0, mapIdxFrom_eq_self f (k + 1) cs (fun i d hd => by
      have hh := h (i + 1) d (by simpa using hd)
      rw [show k + 1 + i = k + (i + 1) by omega]
      exact hh)]

theorem getCell_capRow (g : ℚ → ℚ) (j : ℕ) (r : Row) (j' : ℕ) :
    getCell (mapIdxFrom (fun k c => if k = j then c.map g else c) 0 r) j'
      = if j' = j then (getCell r j').map g else getCell r j' := by
  show (mapIdxFrom _ 0 r).getD j' none = _
  rw [getD_mapIdxFrom]
  by_cases hj : j' < r.length
  · rw [if_pos hj, Nat.zero_add]
    rfl
  · rw [if_neg hj]
    have hcell : getCell r j' = none := getD_of_length_le none r j' (le_of_not_lt hj)
    rw [hcell]
    by_cases h : j' = j
    · rw [if_pos h]
      rfl
    · rw [if_neg h]

theorem colCells_capClamp (t : Table) (j : ℕ) (lo hi : ℚ) (j' : ℕ) :
    colCells (capClampTable t j lo hi) j'
      = if j' = j then (colCells t j').map (Option.map (clampQ lo hi))
        else colCells t j' := by
  have hbase : colCells (capClampTable t j lo hi) j'
      = t.rows.map (fun r =>
          if j' = j then (getCell r j').map (clampQ lo hi) else getCell r j') := by
    show (t.rows.map _).map (fun r => getCell r j') = _
    rw [List.map_map]
    refine List.map_congr_left (fun r _ => ?_)
    exact getCell_capRow (clampQ lo hi) j r j'
  rw [hbase]
  by_cases h : j' = j
  · rw [if_pos h]
    simp only [if_pos h]
    show _ = (t.rows.map (fun r => getCell r j')).map (Option.map (clampQ lo hi))
    rw [List.map_map]
    rfl
  · rw [if_neg h]
    simp only [if_neg h]
    rfl

theorem nonNull_map_map (g : ℚ → ℚ) :
    ∀ cs : List Cell, nonNull (cs.map (Option.map g)) = (nonNull cs).map g
  | [] => rfl
  | none :: cs => by
    simp only [nonNull, List.map_cons, Option.map_none]
    rw [List.filterMap_cons_none rfl, List.filterMap_cons_none rfl]
    exact nonNull_map_map g cs
  | some v :: cs => by
    simp only [nonNull, List.map_cons]
    rw [@List.filterMap_cons_some Cell ℚ id (Option.map g (some v)) _ (g v) rfl,
      @List.filterMap_cons_some Cell ℚ id (some v) _ v rfl, List.map_cons]
    exact congrArg (fun l => g v :: l) (nonNull_map_map g cs)

theorem capClamp_eq_self (t : Table) (j : ℕ) (lo hi : ℚ)
    (h : ∀ v ∈ nonNull (colCells t j), clampQ lo hi v = v) :
    capClampTable t j lo hi = t := by
  cases t with
  | mk hdr rows =>
    show (⟨hdr, rows.map _⟩ : Table) = ⟨hdr, rows⟩
    congr 1
    refine map_id_of_mem _ rows (fun r hr => ?_)
    refine mapIdxFrom_eq_self _ 0 r (fun i c hc => ?_)
    rw [Nat.zero_add]
    by_cases hij : i = j
    · rw [if_pos hij]
      cases c with
      | none => rfl
      | some v =>
        have hcell : getCell r j = some v := by
          rw [getCell, List.getD_eq_get?, ← hij, hc]
          rfl
        have hmem : v ∈ nonNull (colCells ⟨hdr, rows⟩ j) := by
          refine List.mem_filterMap.mpr ⟨some v, ?_, rfl⟩
          rw [← hcell]
          exact List.mem_map_of_mem _ hr
        rw [show Option.map (clampQ lo hi) (some v) = some (clampQ lo hi v) from rfl,
          h v hmem]
    · rw [if_neg hij]

theorem capFoldStep_eq_none (p : Table × List LogEntry) (name : String)
    (hidx : firstIdxOf name p.1.header = none) : capFoldStep p name = p := by
  simp only [capFoldStep, hidx]

theorem capFoldStep_eq_empty (p : Table × List LogEntry) (name : String) (j : ℕ)
    (hidx : firstIdxOf name p.1.header = some j)
    (hvs : nonNull (colCells p.1 j) = []) : capFoldStep p name = p := by
  simp only [capFoldStep, hidx]
  rw [if_pos hvs]

theorem capFoldStep_eq_clamp (p : Table × List LogEntry) (name : String) (j : ℕ)
    (hidx : firstIdxOf name p.1.header = some j)
    (hvs : nonNull (colCells p.1 j) ≠ []) :
    capFoldStep p name
      = (capClampTable p.1 j (tukeyFences (nonNull (colCells p.1 j))).1
           (tukeyFences (nonNull (colCells p.1 j))).2,
         if 0 < outsideCount (nonNull (colCells p.1 j))
             (tukeyFences (nonNull (colCells p.1 j))).1
             (tukeyFences (nonNull (colCells p.1 j))).2
         then p.2 ++ [LogEntry.cappedOutliers name
             (outsideCount (nonNull (colCells p.1 j))
               (tukeyFences (nonNull (colCells p.1 j))).1
               (tukeyFences (nonNull (colCells p.1 j))).2)]
         else p.2) := by
  simp only [capFoldStep, hidx]
  rw [if_neg hvs]

theorem tukeyLo_le (vs : List ℚ) (hne : vs ≠ []) (B : ℚ) (hB : ∀ v ∈ vs, v ≤ B) :
    (tukeyFences vs).1 ≤ B := by
  have h13 := quantileQ_q1_le_q3 vs hne
  have h1B := quantileQ_le vs hne (1 / 4) (by norm_num) (by norm_num) B hB
  show quantileQ vs (1 / 4) - 3 / 2 * (quantileQ vs (3 / 4) - quantileQ vs (1 / 4)) ≤ B
  linarith

theorem le_tukeyHi (vs : List ℚ) (hne : vs ≠ []) (b : ℚ) (hb : ∀ v ∈ vs, b ≤ v) :
    b ≤ (tukeyFences vs).2 := by
  have h13 := quantileQ_q1_le_q3 vs hne
  have hb3 := le_quantileQ vs hne (3 / 4) (by norm_num) (by norm_num) b hb
  show b ≤ quantileQ vs (3 / 4) + 3 / 2 * (quantileQ vs (3 / 4) - quantileQ vs (1 / 4))
  linarith

theorem tukeyLo_le_tukeyHi (vs : List ℚ) (hne : vs ≠ []) :
    (tukeyFences vs).1 ≤ (tukeyFences vs).2 := by
  have h13 := quantileQ_q1_le_q3 vs hne
  show quantileQ vs (1 / 4) - 3 / 2 * (quantileQ vs (3 / 4) - quantileQ vs (1 / 4))
    ≤ quantileQ vs (3 / 4) + 3 / 2 * (quantileQ vs (3 / 4) - quantileQ vs (1 / 4))
  linarith

theorem clampQ_le (lo hi v B : ℚ) (hlo : lo ≤ B) (hv : v ≤ B) : clampQ lo hi v ≤ B :=
  max_le hlo (le_trans (min_le_left _ _) hv)

theorem le_clampQ (lo hi v b : ℚ) (hhi : b ≤ hi) (hv : b ≤ v) : b ≤ clampQ lo hi v :=
  le_trans (le_min hv hhi) (le_max_right _ _)

theorem clampQ_le_hi (lo hi v : ℚ) (h : lo ≤ hi) : clampQ lo hi v ≤ hi :=
  max_le h (min_le_right _ _)

theorem lo_le_clampQ (lo hi v : ℚ) : lo ≤ clampQ lo hi v :=
  le_max_left _ _

/-- A uniform upper bound on the non-missing values of a column survives one
capping pass: other columns are untouched, and on the column itself the new
lower fence sits below the first quartile, hence below the bound. -/
theorem capFoldStep_upper (p : Table × List LogEntry) (name : String) (j : ℕ) (B : ℚ)
    (hub : ∀ w ∈ nonNull (colCells p.1 j), w ≤ B) :
    ∀ w ∈ nonNull (colCells (capFoldStep p name).1 j), w ≤ B := by
  rcases hidx : firstIdxOf name p.1.header with _ | j'
  · rw [capFoldStep_eq_none p name hidx]
    exact hub
  · by_cases hvs : nonNull (colCells p.1 j') = []
    · rw [capFoldStep_eq_empty p name j' hidx hvs]
      exact hub
    · rw [capFoldStep_eq_clamp p name j' hidx hvs]
      show ∀ w ∈ nonNull (colCells (capClampTable p.1 j'
        (tukeyFences (nonNull (colCells p.1 j'))).1
        (tukeyFences (nonNull (colCells p.1 j'))).2) j), w ≤ B
      intro w hw
      rw [colCells_capClamp] at hw
      by_cases hjj : j = j'
      · rw [if_pos hjj, nonNull_map_map] at hw
        obtain ⟨u, hu, huw⟩ := List.mem_map.mp hw
        rw [← huw]
        subst hjj
        exact clampQ_le _ _ _ _ (tukeyLo_le _ hvs B hub) (hub u hu)
      · rw [if_neg hjj] at hw
        exact hub w hw

/-- Dually, a uniform lower bound survives one capping pass. -/
theorem capFoldStep_lower (p : Table × List LogEntry) (name : String) (j : ℕ) (b : ℚ)
    (hlb : ∀ w ∈ nonNull (colCells p.1 j), b ≤ w) :
    ∀ w ∈ nonNull (colCells (capFoldStep p name).1 j), b ≤ w := by
  rcases hidx : firstIdxOf name p.1.header with _ | j'
  · rw [capFoldStep_eq_none p name hidx]
    exact hlb
  · by_cases hvs : nonNull (colCells p.1 j') = []
    · rw [capFoldStep_eq_empty p name j' hidx hvs]
      exact hlb
    · rw [capFoldStep_eq_clamp p name j' hidx hvs]
      show ∀ w ∈ nonNull (colCells (capClampTable p.1 j'
        (tukeyFences (nonNull (colCells p.1 j'))).1
        (tukeyFences (nonNull (colCells p.1 j'))).2) j), b ≤ w
      intro w hw
      rw [colCells_capClamp] at hw
      by_cases hjj : j = j'
      · rw [if_pos hjj, nonNull_map_map] at hw
        obtain ⟨u, hu, huw⟩ := List.mem_map.mp hw
        rw [← huw]
        subst hjj
        exact le_clampQ _ _ _ _ (le_tukeyHi _ hvs b hlb) (hlb u hu)
      · rw [if_neg hjj] at hw
        exact hlb w hw

theorem capFold_upper (cols : List String) (p : Table × List LogEntry) (j : ℕ) (B : ℚ)
    (hub : ∀ w ∈ nonNull (colCells p.1 j), w ≤ B) :
    ∀ w ∈ nonNull (colCells (cols.foldl capFoldStep p).1 j), w ≤ B :=
  foldl_invariant capFoldStep (fun p' => ∀ w ∈ nonNull (colCells p'.1 j), w ≤ B)
    cols p hub (fun p' name h => capFoldStep_upper p' name j B h)

theorem capFold_lower (cols : List String) (p : Table × List LogEntry) (j : ℕ) (b : ℚ)
    (hlb : ∀ w ∈ nonNull (colCells p.1 j), b ≤ w) :
    ∀ w ∈ nonNull (colCells (cols.foldl capFoldStep p).1 j), b ≤ w :=
  foldl_invariant capFoldStep (fun p' => ∀ w ∈ nonNull (colCells p'.1 j), b ≤ w)
    cols p hlb (fun p' name h => capFoldStep_lower p' name j b h)

/-- If `cap_outliers_iqr` logged anything, the table really changed: the
only pass that logs is one that found a value strictly outside the Tukey
fences, clamping pins the whole column inside the fences, and every later
pass keeps it there, so the final table cannot equal the input. -/
theorem capFold_change_of_log :
    ∀ (cols : List String) (t : Table) (l : List LogEntry),
      (cols.foldl capFoldStep (t, l)).2 ≠ l → (cols.foldl capFoldStep (t, l)).1 ≠ t
  | [], _, _, h => absurd rfl h
  | c :: cols, t, l, h => by
    rw [List.foldl_cons] at h ⊢
    rcases hidx : firstIdxOf c (Prod.fst (α := Table) (β := List LogEntry) (t, l)).header
      with _ | j
    · rw [capFoldStep_eq_none (t, l) c hidx] at h ⊢
      exact capFold_change_of_log cols t l h
    · by_cases hvs : nonNull (colCells t j) = []
      · rw [capFoldStep_eq_empty (t, l) c j hidx hvs] at h ⊢
        exact capFold_change_of_log cols t l h
      · rw [capFoldStep_eq_clamp (t, l) c j hidx hvs] at h ⊢
        by_cases hcap : 0 < outsideCount (nonNull (colCells t j))
            (tukeyFences (nonNull (colCells t j))).1
            (tukeyFences (nonNull (colCells t j))).2
        · rw [if_pos hcap]
          show (List.foldl capFoldStep
            (capClampTable t j (tukeyFences (nonNull (colCells t j))).1
               (tukeyFences (nonNull (colCells t j))).2,
             l ++ [LogEntry.cappedOutliers c (outsideCount (nonNull (colCells t j))
               (tukeyFences (nonNull (colCells t j))).1
               (tukeyFences (nonNull (colCells t j))).2)]) cols).1 ≠ t
          intro heq
          obtain ⟨v, hvmem⟩ := List.exists_mem_of_length_pos hcap
          have hv : v ∈ nonNull (colCells t j) := (List.mem_filter.mp hvmem).1
          have hout : v < (tukeyFences (nonNull (colCells t j))).1 ∨
              (tukeyFences (nonNull (colCells t j))).2 < v :=
            of_decide_eq_true (List.mem_filter.mp hvmem).2
          have hlohi : (tukeyFences (nonNull (colCells t j))).1
              ≤ (tukeyFences (nonNull (colCells t j))).2 :=
            tukeyLo_le_tukeyHi _ hvs
          have hup : ∀ w ∈ nonNull (colCells (capClampTable t j
              (tukeyFences (nonNull (colCells t j))).1
              (tukeyFences (nonNull (colCells t j))).2) j),
              w ≤ (tukeyFences (nonNull (colCells t j))).2 := by
            intro w hw
            rw [colCells_capClamp, if_pos rfl, nonNull_map_map] at hw
            obtain ⟨u, _, huw⟩ := List.mem_map.mp hw
            rw [← huw]
            exact clampQ_le_hi _ _ _ hlohi
          have hdown : ∀ w ∈ nonNull (colCells (capClampTable t j
              (tukeyFences (nonNull (colCells t j))).1
              (tukeyFences (nonNull (colCells t j))).2) j),
              (tukeyFences (nonNull (colCells t j))).1 ≤ w := by
            intro w hw
            rw [colCells_capClamp, if_pos rfl, nonNull_map_map] at hw
            obtain ⟨u, _, huw⟩ := List.mem_map.mp hw
            rw [← huw]
            exact lo_le_clampQ _ _ _
          have hfin_up := capFold_upper cols
            (capClampTable t j (tukeyFences (nonNull (colCells t j))).1
               (tukeyFences (nonNull (colCells t j))).2,
             l ++ [LogEntry.cappedOutliers c (outsideCount (nonNull (colCells t j))
               (tukeyFences (nonNull (colCells t j))).1
               (tukeyFences (nonNull (colCells t j))).2)])
            j ((tukeyFences (nonNull (colCells t j))).2) hup
          have hfin_dn := capFold_lower cols
            (capClampTable t j (tukeyFences (nonNull (colCells t j))).1
               (tukeyFences (nonNull (colCells t j))).2,
             l ++ [LogEntry.cappedOutliers c (outsideCount (nonNull (colCells t j))
               (tukeyFences (nonNull (colCells t j))).1
               (tukeyFences (nonNull (colCells t j))).2)])
            j ((tukeyFences (nonNull (colCells t j))).1) hdown
          rw [heq] at hfin_up hfin_dn
          rcases hout with h1 | h2
          · exact absurd (hfin_dn v hv) (by linarith)
          · exact absurd (hfin_up v hv) (by linarith)
        · have hzero : outsideCount (nonNull (colCells t j))
              (tukeyFences (nonNull (colCells t j))).1
              (tukeyFences (nonNull (colCells t j))).2 = 0 :=
            Nat.eq_zero_of_not_pos hcap
          have hnochange : capClampTable t j
              (tukeyFences (nonNull (colCells t j))).1
              (tukeyFences (nonNull (colCells t j))).2 = t := by
            refine capClamp_eq_self t j _ _ (fun v hv => ?_)
            have hfilter : (nonNull (colCells t j)).filter
                (fun v => decide (v < (tukeyFences (nonNull (colCells t j))).1 ∨
                  (tukeyFences (nonNull (colCells t j))).2 < v)) = [] :=
              List.eq_nil_of_length_eq_zero hzero
            have hnot : ¬(v < (tukeyFences (nonNull (colCells t j))).1 ∨
                (tukeyFences (nonNull (colCells t j))).2 < v) := by
              intro hcon
              have hmem : v ∈ ([] : List ℚ) :=
                hfilter ▸ List.mem_filter.mpr ⟨hv, decide_eq_true hcon⟩
              simp at hmem
            push_neg at hnot
            show max _ (min v _) = v
            rw [min_eq_left hnot.2, max_eq_right hnot.1]
          rw [if_neg hcap, hnochange] at h ⊢
          exact capFold_change_of_log cols t l h

/-! ### Per-step change discipline of the cleaning log -/

theorem removeIdxsFrom_length_le {α : Type} (drop : List ℕ) :
    ∀ (k : ℕ) (l : List α), (removeIdxsFrom drop k l).length ≤ l.length
  | _, [] => le_refl 0
  | k, x :: xs => by
    show (if k ∈ drop then removeIdxsFrom drop (k + 1) xs
      else x :: removeIdxsFrom drop (k + 1) xs).length ≤ (x :: xs).length
    split_ifs with h
    · have := removeIdxsFrom_length_le drop (k + 1) xs
      simp only [List.length_cons]
      omega
    · have := removeIdxsFrom_length_le drop (k + 1) xs
      simp only [List.length_cons]
      omega

theorem removeIdxsFrom_length_lt {α : Type} (drop : List ℕ) :
    ∀ (k : ℕ) (l : List α) (j : ℕ), j ∈ drop → k ≤ j → j < k + l.length →
      (removeIdxsFrom drop k l).length < l.length
  | k, [], j, _, hk, hlt => absurd (by simpa using hlt : j < k) (Nat.not_lt.mpr hk)
  | k, x :: xs, j, hj, hk, hlt => by
    show (if k ∈ drop then removeIdxsFrom drop (k + 1) xs
      else x :: removeIdxsFrom drop (k + 1) xs).length < (x :: xs).length
    split_ifs with h
    · have := removeIdxsFrom_length_le drop (k + 1) xs
      simp only [List.length_cons]
      omega
    · have hjk : j ≠ k := fun he => h (he ▸ hj)
      simp only [List.length_cons] at hlt
      have hrec := removeIdxsFrom_length_lt drop (k + 1) xs j hj (by omega) (by omega)
      simp only [List.length_cons]
      omega

theorem fillMissingWith_header (stat : List ℚ → ℚ) (t : Table) :
    (fillMissingWith stat t).header = t.header := by
  unfold fillMissingWith
  refine foldl_invariant _ (fun t' => t'.header = t.header) _ t rfl ?_
  intro s b hs
  dsimp only
  split_ifs with h
  · exact hs
  · exact hs

/-- If `remove_duplicates` left the table unchanged it logged nothing. -/
theorem removeDups_log_of_unchanged (t : Table)
    (hch : (removeDuplicatesStep t).1 = t) :
    (removeDuplicatesStep t).2 = [] := by
  have hrows : dedupFirst t.rows = t.rows := congrArg Table.rows hch
  show (if 0 < t.rows.length - (dedupFirst t.rows).length then
      [LogEntry.removedDuplicates (t.rows.length - (dedupFirst t.rows).length)]
    else []) = []
  rw [hrows, if_neg (by omega)]

/-- If the median strategy of `handle_missing_values` left the table
unchanged it logged nothing: the only entry it can produce reports
dropped columns, and dropping a column shortens the header for good. -/
theorem handleMissing_median_log (th : ℚ) (t : Table)
    (hch : (handleMissingValues Strategy.median th t).1 = t) :
    (handleMissingValues Strategy.median th t).2 = [] := by
  by_cases hdrop : (List.range t.header.length).filter
      (fun j => decide (missingFrac t j > th)) = []
  · show (if (List.range t.header.length).filter
        (fun j => decide (missingFrac t j > th)) = [] then ([] : List LogEntry)
      else [LogEntry.droppedColumns ((List.range t.header.length).filter
        (fun j => decide (missingFrac t j > th))).length]) = []
    rw [if_pos hdrop]
  · exfalso
    obtain ⟨j, hjmem⟩ := List.exists_mem_of_ne_nil _ hdrop
    have hjlt : j < t.header.length := List.mem_range.mp (List.mem_of_mem_filter hjmem)
    have hlen : (removeIdxsFrom ((List.range t.header.length).filter
        (fun j => decide (missingFrac t j > th))) 0 t.header).length < t.header.length :=
      removeIdxsFrom_length_lt _ 0 t.header j hjmem (Nat.zero_le j) (by simpa using hjlt)
    have hhead : (handleMissingValues Strategy.median th t).1.header
        = removeIdxsFrom ((List.range t.header.length).filter
            (fun j => decide (missingFrac t j > th))) 0 t.header := by
      show (fillMissingWith medianQ (if (List.range t.header.length).filter
          (fun j => decide (missingFrac t j > th)) = [] then t
        else ⟨removeIdxsFrom ((List.range t.header.length).filter
            (fun j => decide (missingFrac t j > th))) 0 t.header,
          t.rows.map (removeIdxsFrom ((List.range t.header.length).filter
            (fun j => decide (missingFrac t j > th))) 0)⟩)).header = _
      rw [fillMissingWith_header, if_neg hdrop]
    rw [hch] at hhead
    rw [← hhead] at hlen
    exact lt_irrefl _ hlen

/-- The mean strategy, same argument. -/
theorem handleMissing_mean_log (th : ℚ) (t : Table)
    (hch : (handleMissingValues Strategy.mean th t).1 = t) :
    (handleMissingValues Strategy.mean th t).2 = [] := by
  by_cases hdrop : (List.range t.header.length).filter
      (fun j => decide (missingFrac t j > th)) = []
  · show (if (List.range t.header.length).filter
        (fun j => decide (missingFrac t j > th)) = [] then ([] : List LogEntry)
      else [LogEntry.droppedColumns ((List.range t.header.length).filter
        (fun j => decide (missingFrac t j > th))).length]) = []
    rw [if_pos hdrop]
  · exfalso
    obtain ⟨j, hjmem⟩ := List.exists_mem_of_ne_nil _ hdrop
    have hjlt : j < t.header.length := List.mem_range.mp (List.mem_of_mem_filter hjmem)
    have hlen : (removeIdxsFrom ((List.range t.header.length).filter
        (fun j => decide (missingFrac t j > th))) 0 t.header).length < t.header.length :=
      removeIdxsFrom_length_lt _ 0 t.header j hjmem (Nat.zero_le j) (by simpa using hjlt)
    have hhead : (handleMissingValues Strategy.mean th t).1.header
        = removeIdxsFrom ((List.range t.header.length).filter
            (fun j => decide (missingFrac t j > th))) 0 t.header := by
      show (fillMissingWith meanQ (if (List.range t.header.length).filter
          (fun j => decide (missingFrac t j > th)) = [] then t
        else ⟨removeIdxsFrom ((List.range t.header.length).filter
            (fun j => decide (missingFrac t j > th))) 0 t.header,
          t.rows.map (removeIdxsFrom ((List.range t.header.length).filter
            (fun j => decide (missingFrac t j > th))) 0)⟩)).header = _
      rw [fillMissingWith_header, if_neg hdrop]
    rw [hch] at hhead
    rw [← hhead] at hlen
    exact lt_irrefl _ hlen

/-- The forward-fill strategy, same argument. -/
theorem handleMissing_ffill_log (th : ℚ) (t : Table)
    (hch : (handleMissingValues Strategy.forwardFill th t).1 = t) :
    (handleMissingValues Strategy.forwardFill th t).2 = [] := by
  by_cases hdrop : (List.range t.header.length).filter
      (fun j => decide (missingFrac t j > th)) = []
  · show (if (List.range t.header.length).filter
        (fun j => decide (missingFrac t j > th)) = [] then ([] : List LogEntry)
      else [LogEntry.droppedColumns ((List.range t.header.length).filter
        (fun j => decide (missingFrac t j > th))).length]) = []
    rw [if_pos hdrop]
  · exfalso
    obtain ⟨j, hjmem⟩ := List.exists_mem_of_ne_nil _ hdrop
    have hjlt : j < t.header.length := List.mem_range.mp (List.mem_of_mem_filter hjmem)
    have hlen : (removeIdxsFrom ((List.range t.header.length).filter
        (fun j => decide (missingFrac t j > th))) 0 t.header).length < t.header.length :=
      removeIdxsFrom_length_lt _ 0 t.header j hjmem (Nat.zero_le j) (by simpa using hjlt)
    have hhead : (handleMissingValues Strategy.forwardFill th t).1.header
        = removeIdxsFrom ((List.range t.header.length).filter
            (fun j => decide (missingFrac t j > th))) 0 t.header := by
      show ((if (List.range t.header.length).filter
          (fun j => decide (missingFrac t j > th)) = [] then t
        else ⟨removeIdxsFrom ((List.range t.header.length).filter
            (fun j => decide (missingFrac t j > th))) 0 t.header,
          t.rows.map (removeIdxsFrom ((List.range t.header.length).filter
            (fun j => decide (missingFrac t j > th))) 0)⟩ : Table)).header = _
      rw [if_neg hdrop]
    rw [hch] at hhead
    rw [← hhead] at hlen
    exact lt_irrefl _ hlen

/-- If `validate_irradiance_values` left the table unchanged it logged
nothing. -/
theorem validate_log_of_unchanged (t : Table)
    (hch : (validateIrradianceValues t).1 = t) :
    (validateIrradianceValues t).2 = [] := by
  by_contra hne
  exact validateFold_change_of_log irradianceCols t [] (by decide) hne hch

/-- If `remove_outliers_zscore` left the table unchanged it logged
nothing. -/
theorem zscore_log_of_unchanged (cols : List String) (thr : ℚ) (t : Table)
    (hch : (removeOutliersZscore cols thr t).1 = t) :
    (removeOutliersZscore cols thr t).2 = [] := by
  have hfold : cols.foldl (zscorePass thr) t = t := hch
  show (if 0 < t.rows.length - (cols.foldl (zscorePass thr) t).rows.length then
      [LogEntry.removedOutliers (t.rows.length - (cols.foldl (zscorePass thr) t).rows.length)]
    else []) = []
  rw [hfold, if_neg (by omega)]

/-- If `cap_outliers_iqr` left the table unchanged it logged nothing. -/
theorem cap_log_of_unchanged (cols : List String) (t : Table)
    (hch : (capOutliersIqr cols t).1 = t) :
    (capOutliersIqr cols t).2 = [] := by
  by_contra hne
  exact capFold_change_of_log cols t [] hne hch

/-- C5 counterexample: on a one-column, one-row table with no missing
values, `handle_missing_values(strategy='drop')` changes nothing yet
appends a dropped-rows entry with count 0 to the log. -/
theorem c5_counterexample :
    (runStep c5BadState (CleanStep.handleMissing Strategy.drop (1 / 2))).table
        = c5BadState.table ∧
    c5BadState.log = [] ∧
    (runStep c5BadState (CleanStep.handleMissing Strategy.drop (1 / 2))).log
        = [LogEntry.droppedRows 0] := by
  decide

/-- C5 (amended): across all individually callable cleaning steps the
log is append-only, and every step other than
`handle_missing_values(strategy='drop')` appends nothing when it leaves
the table unchanged; the drop strategy is the exception, logging its
removed-row count even when that count is zero. -/
theorem c5_log_append_only_and_change (s : CleanerState) (st : CleanStep) :
    (∃ δ, (runStep s st).log = s.log ++ δ) ∧
    ((∀ th, st ≠ CleanStep.handleMissing Strategy.drop th) →
      (runStep s st).table = s.table → (runStep s st).log = s.log) := by
  refine ⟨⟨(stepResult st s.table).2, rfl⟩, fun hnd hch => ?_⟩
  have hch' : (stepResult st s.table).1 = s.table := hch
  show s.log ++ (stepResult st s.table).2 = s.log
  have hnil : (stepResult st s.table).2 = [] := by
    cases st with
    | removeDups => exact removeDups_log_of_unchanged s.table hch'
    | coerceNumeric => rfl
    | handleMissing strat th =>
      cases strat with
      | median => exact handleMissing_median_log th s.table hch'
      | mean => exact handleMissing_mean_log th s.table hch'
      | forwardFill => exact handleMissing_ffill_log th s.table hch'
      | drop => exact absurd rfl (hnd th)
    | validateIrradiance => exact validate_log_of_unchanged s.table hch'
    | removeOutliersZ cols thr => exact zscore_log_of_unchanged cols thr s.table hch'
    | capOutliersI cols => exact cap_log_of_unchanged cols s.table hch'
  rw [hnil, List.append_nil]

/-- C5 witness: the validation step on a clean one-cell table changes
nothing and adds no log entry. -/
theorem c5_log_append_only_and_change_witness :
    (runStep c5BadState CleanStep.validateIrradiance).log = ([] : List LogEntry) :=
  (c5_log_append_only_and_change c5BadState CleanStep.validateIrradiance).2
    (fun _ h => CleanStep.noConfusion h) (by decide)

set_option maxRecDepth 10000 in
/-- C1 counterexample: a 100-row table meeting the scenario's premises
verbatim — five duplicate rows, three rows with a negative `GHI`, no
missing values — in which two of the negative rows are identical; the
pipeline's fixed-negative-values entry for `GHI` then reports count 2,
not 3. -/
theorem c1_pipeline_scenario_counterexample :
    c1BadTable.rows.length = 100 ∧
    wfTable c1BadTable ∧
    noMissing c1BadTable ∧
    c1BadTable.rows.length - (dedupFirst c1BadTable.rows).length = 5 ∧
    colIdxsNamed c1BadTable "GHI" = [0] ∧
    (c1BadTable.rows.filter (negRowAt 0)).length = 3 ∧
    (cleanPipeline false c1BadTable).2.filter (isFixedNegativeFor "GHI")
        = [LogEntry.fixedNegativeValues "GHI" 2] := by
  decide

end Solar
